import Mathlib

/-!
# Verification of the wikiagent crawl engine (`src/crawler/app.py`)

A shallow embedding of the crawler's pure/deterministic core, faithful to
`crawler/app.py`:

* `urlsplit` / `urlunsplit` / `urldefrag` — the parts of Python's
  `urllib.parse` that `canon_url` uses (character-level, on `List Char`);
* `canon_url` — URL canonicalization (fragment stripping, edit-URL rejection);
* `TOPIC_RX` — the Nanjing topic-scope regex, as a decidable predicate;
* `extract_links` — category/article link extraction (HTML parsing by
  BeautifulSoup is abstracted: a document is given as the list of its anchor
  elements together with the container each anchor sits in);
* `RateLimiter.wait` — per-host throttle (Python float arithmetic modelled
  exactly over `ℚ`);
* `robots_ok` — per-host robots.txt cache with its fail-open path;
* `upsert_page` and the 304/non-200/200 per-item response handling over an
  explicit database state;
* the worker pool as an interleaving small-step relation (quota counter,
  stop flag, frontier, seen set).

Timestamps are abstract `Nat` values, HTTP bodies are `List Char`.
-/

namespace Wikiagent

/-! ## Small list helpers -/

/-- Split a list at the first occurrence of `c`: returns the prefix before the
first `c` and, if `c` occurs, the suffix after it.  This is the primitive
underlying the `find`/`split(sep, 1)` steps of Python's `urlsplit`. -/
def splitOn1 (c : Char) : List Char → List Char × Option (List Char)
  | [] => ([], none)
  | a :: t =>
    if a = c then ([], some t)
    else ((splitOn1 c t).1.cons a, (splitOn1 c t).2)

theorem splitOn1_of_not_mem {c : Char} {l : List Char} (h : c ∉ l) :
    splitOn1 c l = (l, none) := by
  induction l with
  | nil => rfl
  | cons a t ih =>
    simp only [List.mem_cons, not_or] at h
    simp [splitOn1, Ne.symm h.1, ih h.2]

theorem splitOn1_append {c : Char} {l₁ l₂ : List Char} (h : c ∉ l₁) :
    splitOn1 c (l₁ ++ c :: l₂) = (l₁, some l₂) := by
  induction l₁ with
  | nil => simp [splitOn1]
  | cons a t ih =>
    simp only [List.mem_cons, not_or] at h
    simp [splitOn1, Ne.symm h.1, ih h.2]

/-- The first component of `splitOn1` never contains the splitting char. -/
theorem not_mem_splitOn1_fst (c : Char) (l : List Char) :
    c ∉ (splitOn1 c l).1 := by
  induction l with
  | nil => simp [splitOn1]
  | cons a t ih =>
    by_cases h : a = c
    · simp [splitOn1, h]
    · simp only [splitOn1, if_neg h, List.cons_eq_cons, List.mem_cons, not_or]
      exact ⟨fun hc => h hc.symm, ih⟩

/-- Decomposition: if `c` was found, the input is prefix ++ `c` :: suffix. -/
theorem splitOn1_eq_some {c : Char} {l a b : List Char}
    (h : splitOn1 c l = (a, some b)) : l = a ++ c :: b := by
  induction l generalizing a with
  | nil => simp [splitOn1] at h
  | cons x t ih =>
    by_cases hx : x = c
    · simp only [splitOn1, if_pos hx] at h
      injection h with h1 h2
      injection h2 with h2
      subst h1
      subst h2
      subst hx
      simp
    · simp only [splitOn1, if_neg hx] at h
      injection h with h1 h2
      have ht := @ih ((splitOn1 c t).1) (Prod.ext rfl h2)
      subst h1
      rw [List.cons_append]
      exact congrArg _ ht

/-- Decomposition: if `c` was not found, the prefix is the whole input. -/
theorem splitOn1_eq_none {c : Char} {l a : List Char}
    (h : splitOn1 c l = (a, none)) : l = a ∧ c ∉ l := by
  induction l generalizing a with
  | nil =>
    simp only [splitOn1] at h
    injection h with h1 h2
    subst h1
    simp
  | cons x t ih =>
    by_cases hx : x = c
    · simp only [splitOn1, if_pos hx] at h
      injection h with h1 h2
      simp at h2
    · simp only [splitOn1, if_neg hx] at h
      injection h with h1 h2
      obtain ⟨ht, hm⟩ := @ih ((splitOn1 c t).1) (Prod.ext rfl h2)
      subst h1
      refine ⟨congrArg (List.cons x) ht, ?_⟩
      simp only [List.mem_cons, not_or]
      exact ⟨fun hcc => hx hcc.symm, hm⟩

/-- Every element of either part of `splitOn1` is an element of the input. -/
theorem splitOn1_subset (c : Char) (l : List Char) :
    (∀ a ∈ (splitOn1 c l).1, a ∈ l) ∧
      (∀ r, (splitOn1 c l).2 = some r → ∀ a ∈ r, a ∈ l) := by
  induction l with
  | nil => simp [splitOn1]
  | cons x t ih =>
    by_cases hx : x = c
    · refine ⟨?_, ?_⟩
      · intro a ha
        simp only [splitOn1, if_pos hx] at ha
        simp at ha
      · intro r hr a ha
        simp only [splitOn1, if_pos hx] at hr
        injection hr with hr
        subst hr
        exact List.mem_cons_of_mem _ ha
    · refine ⟨?_, ?_⟩
      · intro a ha
        simp only [splitOn1, if_neg hx] at ha
        rcases List.mem_cons.mp ha with h | h
        · exact h ▸ List.mem_cons_self _ _
        · exact List.mem_cons_of_mem _ (ih.1 a h)
      · intro r hr a ha
        simp only [splitOn1, if_neg hx] at hr
        exact List.mem_cons_of_mem _ (ih.2 r hr a ha)

/-! ## Python `urllib.parse`: the subset used by `canon_url`

`urlsplit`, `urlunsplit` and `urldefrag` modelled character-by-character from
CPython's `urllib/parse.py` (scheme detection, `_splitnetloc`, fragment and
query splitting, reassembly).  Not modelled: the WHATWG control-character
stripping of the raw input, and the IPv6 bracket validation (which raises an
exception rather than returning); the claims concern returned values. -/

/-- Python `scheme_chars = 'abc...xyzABC...XYZ0123456789+-.'` as the literal
character set it is. -/
def scheme_chars : List Char :=
  ("abcdefghijklmnopqrstuvwxyzABCDEFGHIJKLMNOPQRSTUVWXYZ0123456789+-.").toList

/-- Membership in `scheme_chars` (Python `c in scheme_chars`). -/
def schemeChar (a : Char) : Bool := scheme_chars.contains a

/-- `url[0].isascii() and url[0].isalpha()` — an ASCII letter. -/
def asciiAlphaChars : List Char :=
  ("abcdefghijklmnopqrstuvwxyzABCDEFGHIJKLMNOPQRSTUVWXYZ").toList

def asciiAlpha (a : Char) : Bool := asciiAlphaChars.contains a

/-- The five fields returned by Python's `urlsplit`. -/
structure SplitResult where
  scheme : List Char
  netloc : List Char
  path : List Char
  query : List Char
  fragment : List Char
deriving DecidableEq

/-- `urlsplit`'s scheme detection: the text before the first `:` must be
nonempty, start with an ASCII letter and continue with `scheme_chars`; the
scheme is returned lowercased.  Returns the scheme and the remainder. -/
def splitScheme (u : List Char) : Option (List Char × List Char) :=
  match splitOn1 ':' u with
  | (_, none) => none
  | (pre, some rest) =>
    match pre with
    | [] => none
    | h :: t =>
      if asciiAlpha h && t.all schemeChar then some ((h :: t).map Char.toLower, rest)
      else none

/-- Does a character end the netloc? (`/`, `?` or `#`). -/
def netlocDelim (a : Char) : Bool := a = '/' || a = '?' || a = '#'

/-- Python `_splitnetloc`: if the remainder starts with `//`, the netloc runs
up to the first `/`, `?` or `#` after it. -/
def splitNetloc (u : List Char) : List Char × List Char :=
  if u.take 2 = ['/', '/'] then
    ((u.drop 2).takeWhile (fun a => !netlocDelim a),
      (u.drop 2).dropWhile (fun a => !netlocDelim a))
  else ([], u)

/-- Split off the fragment at the first `#` (with `allow_fragments=True`). -/
def splitFragment (u : List Char) : List Char × List Char :=
  ((splitOn1 '#' u).1, ((splitOn1 '#' u).2).getD [])

/-- Split off the query at the first `?`. -/
def splitQuery (u : List Char) : List Char × List Char :=
  ((splitOn1 '?' u).1, ((splitOn1 '?' u).2).getD [])

/-- The netloc/path/query/fragment stages of `urlsplit`, applied to the
post-scheme remainder `v`, tagged with an already-determined scheme `s`. -/
def urlsplitNoScheme (s : List Char) (v : List Char) : SplitResult :=
  let nl := splitNetloc v
  let fr := splitFragment nl.2
  let pq := splitQuery fr.1
  ⟨s, nl.1, pq.1, pq.2, fr.2⟩

/-- Python `urllib.parse.urlsplit` (five components). -/
def urlsplit (u : List Char) : SplitResult :=
  match splitScheme u with
  | some (s, rest) => urlsplitNoScheme s rest
  | none => urlsplitNoScheme [] u

/-- Python `urllib.parse.uses_netloc` (CPython 3.11). -/
def uses_netloc : List (List Char) :=
  [[], ("ftp").toList, ("http").toList, ("gopher").toList, ("nntp").toList,
   ("telnet").toList, ("imap").toList, ("wais").toList, ("file").toList,
   ("mms").toList, ("https").toList, ("shttp").toList, ("snews").toList,
   ("prospero").toList, ("rtsp").toList, ("rtsps").toList, ("rtspu").toList,
   ("rsync").toList, ("svn").toList, ("svn+ssh").toList, ("sftp").toList,
   ("nfs").toList, ("git").toList, ("git+ssh").toList, ("ws").toList,
   ("wss").toList]

/-- The netloc/path reassembly step of Python `urlunsplit` (CPython 3.11):
`if netloc or (scheme and scheme in uses_netloc and url[:2] != '//'): ...`. -/
def assemblePath (scheme netloc path : List Char) : List Char :=
  if netloc ≠ [] ∨ (scheme ≠ [] ∧ scheme ∈ uses_netloc ∧ path.take 2 ≠ ['/', '/']) then
    '/' :: '/' :: (netloc ++ (if path ≠ [] ∧ path.head? ≠ some '/' then '/' :: path else path))
  else path

/-- Python `urllib.parse.urlunsplit` (CPython 3.11). -/
def urlunsplit (r : SplitResult) : List Char :=
  let u1 := assemblePath r.scheme r.netloc r.path
  let u2 := if r.scheme ≠ [] then r.scheme ++ ':' :: u1 else u1
  let u3 := if r.query ≠ [] then u2 ++ '?' :: r.query else u2
  if r.fragment ≠ [] then u3 ++ '#' :: r.fragment else u3

/-- A split result with the fragment dropped, as `urldefrag`/`canon_url`
rebuild it. -/
def noFrag (r : SplitResult) : SplitResult := { r with fragment := [] }

/-- Python `urllib.parse.urldefrag`, first component: if the URL has a `#`,
split it and reassemble without the fragment; otherwise return it unchanged. -/
def urldefrag (u : List Char) : List Char :=
  if '#' ∈ u then urlunsplit (noFrag (urlsplit u)) else u

def wikipediaOrg : List Char := ("wikipedia.org").toList

def actionEdit : List Char := ("action=edit").toList

/-- Python's substring test `needle in haystack`. -/
def isSubstrOf (needle : List Char) : List Char → Bool
  | [] => needle.isEmpty
  | a :: t => needle.isPrefixOf (a :: t) || isSubstrOf needle t

/-- The edit-URL rejection test of `canon_url`:
`p.netloc.endswith("wikipedia.org") and "action=edit" in (p.query or "")`. -/
def editReject (r : SplitResult) : Bool :=
  wikipediaOrg.isSuffixOf r.netloc && isSubstrOf actionEdit r.query

/-- `canon_url` from `crawler/app.py`: drop the fragment via `urldefrag`,
split, reject wikipedia.org edit-action URLs, and reassemble the remaining
components with an empty fragment. -/
def canon_url (u : List Char) : Option (List Char) :=
  let u1 := urldefrag u
  let p := urlsplit u1
  if editReject p then none else some (urlunsplit (noFrag p))

/-! ## Character-level facts (decidable over the literal character sets) -/

theorem alpha_char_facts : ∀ c ∈ asciiAlphaChars, Char.toLower c ∈ asciiAlphaChars ∧
    (Char.toLower c).toLower = Char.toLower c ∧ Char.toLower c ∈ scheme_chars ∧
    Char.toLower c ≠ ':' ∧ Char.toLower c ≠ '#' := by decide

theorem scheme_char_lower : ∀ c ∈ scheme_chars, Char.toLower c ∈ scheme_chars ∧
    (Char.toLower c).toLower = Char.toLower c := by decide

theorem scheme_char_sep : ∀ c ∈ scheme_chars, c ≠ ':' ∧ c ≠ '#' ∧ c ≠ '?' := by decide

theorem slash_not_alpha : '/' ∉ asciiAlphaChars ∧ '?' ∉ asciiAlphaChars ∧
    ':' ∉ asciiAlphaChars := by decide

theorem asciiAlpha_iff_mem {c : Char} : asciiAlpha c = true ↔ c ∈ asciiAlphaChars :=
  List.elem_iff

theorem schemeChar_iff_mem {c : Char} : schemeChar c = true ↔ c ∈ scheme_chars :=
  List.elem_iff

/-- If the head of `l.dropWhile p` exists, it fails `p`. -/
theorem dropWhile_head_not {p : Char → Bool} :
    ∀ (l : List Char) (c : Char), (l.dropWhile p).head? = some c → p c = false := by
  intro l
  induction l with
  | nil => intro c h; simp at h
  | cons a t ih =>
    intro c h
    by_cases ha : p a
    · rw [List.dropWhile_cons_of_pos ha] at h
      exact ih c h
    · rw [List.dropWhile_cons_of_neg ha] at h
      simp only [List.head?_cons, Option.some.injEq] at h
      subst h
      simp only [Bool.not_eq_true] at ha
      exact ha

/-- Splitting a list made of an all-`p` prefix and a remainder whose head
fails `p` recovers exactly the two pieces. -/
theorem takeWhile_dropWhile_append {p : Char → Bool} {n r : List Char}
    (h1 : ∀ a ∈ n, p a = true) (h2 : ∀ c, r.head? = some c → p c = false) :
    (n ++ r).takeWhile p = n ∧ (n ++ r).dropWhile p = r := by
  induction n with
  | nil =>
    simp only [List.nil_append]
    cases r with
    | nil => simp
    | cons c t =>
      have := h2 c (by simp)
      constructor
      · rw [List.takeWhile_cons_of_neg (by simp [this])]
      · rw [List.dropWhile_cons_of_neg (by simp [this])]
  | cons a n' ih =>
    have ha : p a = true := h1 a (by simp)
    obtain ⟨iht, ihd⟩ := ih (fun b hb => h1 b (List.mem_cons_of_mem _ hb))
    constructor
    · rw [List.cons_append, List.takeWhile_cons_of_pos ha, iht]
    · rw [List.cons_append, List.dropWhile_cons_of_pos ha, ihd]

/-! ## `splitScheme` lemmas -/

/-- A scheme as `urlsplit` returns it: the lowercasing of a valid raw scheme. -/
def ValidScheme (s : List Char) : Prop :=
  ∃ h t, s = (h :: t).map Char.toLower ∧ h ∈ asciiAlphaChars ∧ ∀ a ∈ t, a ∈ scheme_chars

theorem validScheme_shape {s : List Char} (hs : ValidScheme s) :
    (∃ h2 t2, s = h2 :: t2 ∧ h2 ∈ asciiAlphaChars ∧ ∀ a ∈ t2, a ∈ scheme_chars) ∧
      s.map Char.toLower = s ∧ ':' ∉ s ∧ '#' ∉ s := by
  obtain ⟨h, t, rfl, hh, ht⟩ := hs
  obtain ⟨hmem, hidem, hsch, hc, hhash⟩ := alpha_char_facts h hh
  refine ⟨⟨Char.toLower h, t.map Char.toLower, by simp, hmem, ?_⟩, ?_, ?_, ?_⟩
  · intro a ha
    obtain ⟨b, hb, rfl⟩ := List.mem_map.mp ha
    exact (scheme_char_lower b (ht b hb)).1
  · simp only [List.map_cons, List.map_map, List.cons.injEq]
    constructor
    · exact hidem
    · apply List.map_congr_left
      intro b hb
      simp only [Function.comp_apply]
      exact (scheme_char_lower b (ht b hb)).2
  · simp only [List.map_cons, List.mem_cons, not_or]
    refine ⟨fun e => hc e.symm, ?_⟩
    intro hmem2
    obtain ⟨b, hb, hbe⟩ := List.mem_map.mp hmem2
    exact (scheme_char_sep _ (scheme_char_lower b (ht b hb)).1).1 hbe
  · simp only [List.map_cons, List.mem_cons, not_or]
    refine ⟨fun e => hhash e.symm, ?_⟩
    intro hmem2
    obtain ⟨b, hb, hbe⟩ := List.mem_map.mp hmem2
    exact (scheme_char_sep _ (scheme_char_lower b (ht b hb)).1).2.1 hbe

/-- Characterization of a successful scheme detection. -/
theorem splitScheme_some {u s rest : List Char} (h : splitScheme u = some (s, rest)) :
    ValidScheme s ∧ ∃ h0 t0, u = (h0 :: t0) ++ ':' :: rest ∧ s = (h0 :: t0).map Char.toLower ∧
      ':' ∉ (h0 :: t0) ∧ h0 ∈ asciiAlphaChars ∧ ∀ a ∈ t0, a ∈ scheme_chars := by
  rcases e : splitOn1 ':' u with ⟨pre, o⟩
  rcases o with _ | rest0
  · simp only [splitScheme, e] at h
    exact Option.noConfusion h
  · rcases pre with _ | ⟨h0, t0⟩
    · simp only [splitScheme, e] at h
      exact Option.noConfusion h
    · simp only [splitScheme, e] at h
      by_cases hcond : (asciiAlpha h0 && List.all t0 schemeChar) = true
      · rw [if_pos hcond] at h
        injection h with h
        injection h with h1 h2
        subst h2
        obtain ⟨ha, hall⟩ := Bool.and_eq_true_iff.mp hcond
        have hmem := asciiAlpha_iff_mem.mp ha
        have hts : ∀ a ∈ t0, a ∈ scheme_chars := by
          intro a hain
          exact schemeChar_iff_mem.mp (List.all_eq_true.mp hall a hain)
        have hne := not_mem_splitOn1_fst ':' u
        rw [e] at hne
        exact ⟨⟨h0, t0, h1.symm, hmem, hts⟩, h0, t0, splitOn1_eq_some e, h1.symm, hne, hmem, hts⟩
      · rw [if_neg hcond] at h
        exact absurd h (by simp)

/-- Prepending a raw valid scheme and `:` is detected, with the scheme
returned lowercased. -/
theorem splitScheme_prepend_raw {h0 : Char} {t0 core : List Char}
    (hh0 : h0 ∈ asciiAlphaChars) (ht0 : ∀ a ∈ t0, a ∈ scheme_chars)
    (hcolon : ':' ∉ h0 :: t0) :
    splitScheme ((h0 :: t0) ++ ':' :: core) = some ((h0 :: t0).map Char.toLower, core) := by
  have e := @splitOn1_append ':' (h0 :: t0) core hcolon
  simp only [splitScheme, e]
  rw [if_pos]
  rw [Bool.and_eq_true_iff]
  constructor
  · exact asciiAlpha_iff_mem.mpr hh0
  · rw [List.all_eq_true]
    intro a hain
    exact schemeChar_iff_mem.mpr (ht0 a hain)

/-- Prepending a valid lowered scheme and `:` is inverted by `splitScheme`. -/
theorem splitScheme_prepend {s core : List Char} (hs : ValidScheme s) :
    splitScheme (s ++ ':' :: core) = some (s, core) := by
  obtain ⟨⟨h2, t2, rfl, hh2, ht2⟩, hlow, hcolon, _⟩ := validScheme_shape hs
  rw [splitScheme_prepend_raw hh2 ht2 hcolon, hlow]

/-- No scheme is detected when the first character is not an ASCII letter
(in particular for the empty string and strings starting with `/` or `?`). -/
theorem splitScheme_none_head {u : List Char}
    (h : ∀ c, u.head? = some c → c ∉ asciiAlphaChars) : splitScheme u = none := by
  rcases u with _ | ⟨a, t⟩
  · rfl
  · by_cases ha : a = ':'
    · subst ha
      simp [splitScheme, splitOn1]
    · have hpre : splitOn1 ':' (a :: t) = ((splitOn1 ':' t).1.cons a, (splitOn1 ':' t).2) := by
        simp [splitOn1, ha]
      rcases o : (splitOn1 ':' t).2 with _ | rest0
      · simp [splitScheme, hpre, o]
      · simp only [splitScheme, hpre, o, List.cons_eq_cons]
        rw [if_neg]
        rw [Bool.and_eq_true_iff]
        intro ⟨hcl, _⟩
        exact h a rfl (asciiAlpha_iff_mem.mp hcl)

/-- Scheme detection fails on any leading portion of a string it fails on. -/
theorem splitScheme_none_of_leading {w v ext : List Char} (hp : v = w ++ ext)
    (h : splitScheme v = none) : splitScheme w = none := by
  rcases e : splitScheme w with _ | ⟨s, rest⟩
  · rfl
  · exfalso
    obtain ⟨_, h0, t0, rfl, _, hcolon, hh0, ht0⟩ := splitScheme_some e
    subst hp
    have hv : ((h0 :: t0) ++ ':' :: rest) ++ ext = (h0 :: t0) ++ ':' :: (rest ++ ext) := by
      simp
    rw [hv, splitScheme_prepend_raw hh0 ht0 hcolon] at h
    exact Option.noConfusion h

/-! ## `splitNetloc` / `splitFragment` / `splitQuery` lemmas -/

theorem netlocDelim_iff {c : Char} : netlocDelim c = true ↔ c = '/' ∨ c = '?' ∨ c = '#' := by
  simp [netlocDelim, or_assoc]

theorem splitNetloc_netloc_prop (u : List Char) :
    ∀ a ∈ (splitNetloc u).1, netlocDelim a = false := by
  unfold splitNetloc
  split
  · intro a ha
    have := List.mem_takeWhile_imp ha
    simpa using this
  · intro a ha
    simp at ha

theorem splitFragment_snd_getD {u : List Char} :
    splitFragment u = ((splitOn1 '#' u).1, ((splitOn1 '#' u).2).getD []) := rfl

theorem hash_not_mem_splitFragment_fst (u : List Char) : '#' ∉ (splitFragment u).1 :=
  not_mem_splitOn1_fst '#' u

theorem qmark_not_mem_splitQuery_fst (u : List Char) : '?' ∉ (splitQuery u).1 :=
  not_mem_splitOn1_fst '?' u

theorem splitFragment_fst_subset (u : List Char) : ∀ a ∈ (splitFragment u).1, a ∈ u :=
  (splitOn1_subset '#' u).1

theorem splitQuery_fst_subset (u : List Char) : ∀ a ∈ (splitQuery u).1, a ∈ u :=
  (splitOn1_subset '?' u).1

theorem splitQuery_snd_subset (u : List Char) : ∀ a ∈ (splitQuery u).2, a ∈ u := by
  intro a ha
  rcases e : (splitOn1 '?' u).2 with _ | q
  · simp [splitQuery, e] at ha
  · simp only [splitQuery, e, Option.getD_some] at ha
    exact (splitOn1_subset '?' u).2 q e a ha

theorem splitFragment_of_not_mem {u : List Char} (h : '#' ∉ u) : splitFragment u = (u, []) := by
  simp [splitFragment, splitOn1_of_not_mem h]

theorem splitQuery_of_not_mem {u : List Char} (h : '?' ∉ u) : splitQuery u = (u, []) := by
  simp [splitQuery, splitOn1_of_not_mem h]

theorem splitQuery_append {p q : List Char} (h : '?' ∉ p) :
    splitQuery (p ++ '?' :: q) = (p, q) := by
  simp [splitQuery, splitOn1_append h]

/-- The pre-fragment part starts with the same character as its input. -/
theorem splitFragment_fst_head {u : List Char} (h : (splitFragment u).1 ≠ []) :
    (splitFragment u).1.head? = u.head? := by
  rcases e : splitOn1 '#' u with ⟨a, o⟩
  have ha : (splitFragment u).1 = a := by simp [splitFragment, e]
  rw [ha]
  rw [ha] at h
  rcases o with _ | f
  · rw [(splitOn1_eq_none e).1]
  · rw [splitOn1_eq_some e]
    exact (List.head?_append_of_ne_nil _ h).symm

/-- The pre-query part starts with the same character as its input. -/
theorem splitQuery_fst_head {u : List Char} (h : (splitQuery u).1 ≠ []) :
    (splitQuery u).1.head? = u.head? := by
  rcases e : splitOn1 '?' u with ⟨a, o⟩
  have ha : (splitQuery u).1 = a := by simp [splitQuery, e]
  rw [ha]
  rw [ha] at h
  rcases o with _ | q
  · rw [(splitOn1_eq_none e).1]
  · rw [splitOn1_eq_some e]
    exact (List.head?_append_of_ne_nil _ h).symm

/-! ## The shape invariant of `urlsplit` results -/

/-- The invariants every `urlsplit` result satisfies, as needed to re-split
its reassembly. -/
def GoodResult (r : SplitResult) : Prop :=
  (r.scheme = [] ∨ ValidScheme r.scheme) ∧
  (∀ a ∈ r.netloc, netlocDelim a = false) ∧
  '?' ∉ r.path ∧ '#' ∉ r.path ∧
  (r.netloc ≠ [] → r.path = [] ∨ r.path.head? = some '/') ∧
  '#' ∉ r.query

theorem urlsplitNoScheme_good (s v : List Char) (hs : s = [] ∨ ValidScheme s) :
    GoodResult (urlsplitNoScheme s v) := by
  refine ⟨hs, ?_, ?_, ?_, ?_, ?_⟩
  · exact splitNetloc_netloc_prop v
  · exact qmark_not_mem_splitQuery_fst _
  · intro hmem
    exact hash_not_mem_splitFragment_fst _ (splitQuery_fst_subset _ _ hmem)
  · intro hn
    by_cases hpath : (splitQuery (splitFragment (splitNetloc v).2).1).1 = []
    · exact Or.inl hpath
    · right
      by_cases hb : v.take 2 = ['/', '/']
      · rcases hc : (splitQuery (splitFragment (splitNetloc v).2).1).1.head? with _ | c
        · exact absurd (List.head?_eq_none_iff.mp hc) hpath
        · have hfr : (splitFragment (splitNetloc v).2).1 ≠ [] := by
            intro he
            rw [he] at hc
            simp [splitQuery, splitOn1] at hc
          have h1 : (splitQuery (splitFragment (splitNetloc v).2).1).1.head? =
              (splitFragment (splitNetloc v).2).1.head? := splitQuery_fst_head hpath
          have h2 : (splitFragment (splitNetloc v).2).1.head? =
              ((splitNetloc v).2).head? := splitFragment_fst_head hfr
          have hcv : ((splitNetloc v).2).head? = some c := by rw [← h2, ← h1, hc]
          have hdelim : netlocDelim c = true := by
            have hrest : (splitNetloc v).2 = (v.drop 2).dropWhile (fun a => !netlocDelim a) := by
              simp [splitNetloc, hb]
            rw [hrest] at hcv
            have := dropWhile_head_not _ _ hcv
            simpa using this
          have hcp : c ∈ (splitQuery (splitFragment (splitNetloc v).2).1).1 := by
            rcases e : (splitQuery (splitFragment (splitNetloc v).2).1).1 with _ | ⟨x, xs⟩
            · exact absurd e hpath
            · rw [e] at hc
              simp only [List.head?_cons, Option.some.injEq] at hc
              simp [e, hc]
          rcases netlocDelim_iff.mp hdelim with h | h | h
          · show (splitQuery (splitFragment (splitNetloc v).2).1).1.head? = some '/'
            rw [hc, h]
          · exact absurd (h ▸ hcp) (qmark_not_mem_splitQuery_fst _)
          · exact absurd (h ▸ hcp)
              (fun hm => hash_not_mem_splitFragment_fst _ (splitQuery_fst_subset _ _ hm))
      · exfalso
        have : splitNetloc v = ([], v) := by simp [splitNetloc, hb]
        simp only [urlsplitNoScheme] at hn
        rw [this] at hn
        exact hn rfl
  · intro hmem
    exact hash_not_mem_splitFragment_fst _ (splitQuery_snd_subset _ _ hmem)

theorem urlsplit_good (u : List Char) : GoodResult (urlsplit u) := by
  unfold urlsplit
  rcases e : splitScheme u with _ | ⟨s, rest⟩
  · exact urlsplitNoScheme_good [] u (Or.inl rfl)
  · exact urlsplitNoScheme_good s rest (Or.inr (splitScheme_some e).1)

/-! ## Re-splitting a reassembled URL (the nonempty-netloc round trip) -/

theorem splitNetloc_slash2 (w : List Char) :
    splitNetloc ('/' :: '/' :: w) =
      (w.takeWhile (fun a => !netlocDelim a), w.dropWhile (fun a => !netlocDelim a)) := by
  simp [splitNetloc]

/-- Re-splitting `//` ++ netloc ++ path (no query): recovers the components. -/
theorem core_resplit_noq (s n p : List Char) (hnl : ∀ a ∈ n, netlocDelim a = false)
    (hqp : '?' ∉ p) (hhp : '#' ∉ p) (hph : p = [] ∨ p.head? = some '/') :
    urlsplitNoScheme s ('/' :: '/' :: (n ++ p)) = ⟨s, n, p, [], []⟩ := by
  have h1 : ∀ a ∈ n, (fun a => !netlocDelim a) a = true := by
    intro a ha
    simp [hnl a ha]
  have h2 : ∀ c, p.head? = some c → (fun a => !netlocDelim a) c = false := by
    intro c hc
    rcases hph with hp0 | hp0
    · rw [hp0] at hc
      exact absurd hc (by simp)
    · rw [hp0] at hc
      injection hc with hc
      subst hc
      simp [netlocDelim]
  obtain ⟨ht, hd⟩ := takeWhile_dropWhile_append h1 h2
  simp only [urlsplitNoScheme, splitNetloc_slash2, ht, hd,
    splitFragment_of_not_mem hhp, splitQuery_of_not_mem hqp]

/-- Re-splitting `//` ++ netloc ++ path ++ `?` ++ query: recovers the
components. -/
theorem core_resplit_q (s n p q : List Char) (hnl : ∀ a ∈ n, netlocDelim a = false)
    (hqp : '?' ∉ p) (hhp : '#' ∉ p) (hph : p = [] ∨ p.head? = some '/')
    (hhq : '#' ∉ q) :
    urlsplitNoScheme s ('/' :: '/' :: ((n ++ p) ++ '?' :: q)) = ⟨s, n, p, q, []⟩ := by
  have h1 : ∀ a ∈ n, (fun a => !netlocDelim a) a = true := by
    intro a ha
    simp [hnl a ha]
  have h2 : ∀ c, (p ++ '?' :: q).head? = some c → (fun a => !netlocDelim a) c = false := by
    intro c hc
    rcases hph with hp0 | hp0
    · rw [hp0, List.nil_append, List.head?_cons] at hc
      injection hc with hc
      subst hc
      simp [netlocDelim]
    · rcases p with _ | ⟨x, xs⟩
      · exact absurd hp0 (by simp)
      · simp only [List.head?_cons, Option.some.injEq] at hp0
        rw [List.cons_append, List.head?_cons] at hc
        injection hc with hc
        rw [← hc, hp0]
        simp [netlocDelim]
  have hrest : (n ++ p) ++ '?' :: q = n ++ (p ++ '?' :: q) := List.append_assoc n p _
  obtain ⟨ht, hd⟩ := takeWhile_dropWhile_append h1 h2
  have hhpq : '#' ∉ p ++ '?' :: q := by
    simp only [List.mem_append, List.mem_cons, not_or]
    exact ⟨hhp, by decide, hhq⟩
  simp only [urlsplitNoScheme, hrest, splitNetloc_slash2, ht, hd,
    splitFragment_of_not_mem hhpq, splitQuery_append hqp]

/-- The round trip: re-splitting the reassembly of a (good, fragment-free)
split result with a nonempty netloc recovers it exactly. -/
theorem urlsplit_urlunsplit {r : SplitResult} (hg : GoodResult r)
    (hf : r.fragment = []) (hn : r.netloc ≠ []) : urlsplit (urlunsplit r) = r := by
  obtain ⟨s, n, p, q, frag⟩ := r
  obtain ⟨hs, hnl, hqp, hhp, hhead, hhq⟩ := hg
  simp only at hs hnl hqp hhp hhead hhq hn
  simp only at hf
  subst hf
  have hph : p = [] ∨ p.head? = some '/' := hhead hn
  have hu1 : assemblePath s n p = '/' :: '/' :: (n ++ p) := by
    rw [assemblePath, if_pos (Or.inl hn), if_neg]
    intro ⟨hp1, hp2⟩
    rcases hph with h | h
    · exact hp1 h
    · exact hp2 h
  rcases hs with hs0 | hsv
  · subst hs0
    by_cases hq : q = []
    · subst hq
      have : urlunsplit ⟨[], n, p, [], []⟩ = '/' :: '/' :: (n ++ p) := by
        simp only [urlunsplit, hu1]
        simp
      rw [this]
      rw [urlsplit, splitScheme_none_head (by
        intro c hc
        simp only [List.head?_cons, Option.some.injEq] at hc
        subst hc
        exact slash_not_alpha.1)]
      exact core_resplit_noq [] n p hnl hqp hhp hph
    · have : urlunsplit ⟨[], n, p, q, []⟩ = '/' :: '/' :: ((n ++ p) ++ '?' :: q) := by
        simp only [urlunsplit, hu1]
        simp [hq]
      rw [this]
      rw [urlsplit, splitScheme_none_head (by
        intro c hc
        simp only [List.head?_cons, Option.some.injEq] at hc
        subst hc
        exact slash_not_alpha.1)]
      exact core_resplit_q [] n p q hnl hqp hhp hph hhq
  · have hsne : s ≠ [] := by
      obtain ⟨h0, t0, rfl, _, _⟩ := hsv
      simp
    by_cases hq : q = []
    · subst hq
      have : urlunsplit ⟨s, n, p, [], []⟩ = s ++ ':' :: ('/' :: '/' :: (n ++ p)) := by
        simp only [urlunsplit, hu1]
        simp [hsne]
      rw [this]
      rw [urlsplit, splitScheme_prepend hsv]
      exact core_resplit_noq s n p hnl hqp hhp hph
    · have : urlunsplit ⟨s, n, p, q, []⟩ =
          s ++ ':' :: ('/' :: '/' :: ((n ++ p) ++ '?' :: q)) := by
        simp only [urlunsplit, hu1]
        simp [hsne, hq]
      rw [this]
      rw [urlsplit, splitScheme_prepend hsv]
      exact core_resplit_q s n p q hnl hqp hhp hph hhq

/-! ## The reassembly of a fragment-free split result contains no `#` -/

theorem mem_assemblePath {a : Char} {s n p : List Char} (h : a ∈ assemblePath s n p) :
    a = '/' ∨ a ∈ n ∨ a ∈ p := by
  unfold assemblePath at h
  split at h
  · simp only [List.mem_cons, List.mem_append] at h
    rcases h with h | h | h | h
    · exact Or.inl h
    · exact Or.inl h
    · exact Or.inr (Or.inl h)
    · split at h
      · simp only [List.mem_cons] at h
        rcases h with h | h
        · exact Or.inl h
        · exact Or.inr (Or.inr h)
      · exact Or.inr (Or.inr h)
  · exact Or.inr (Or.inr h)

theorem hash_not_mem_urlunsplit {r : SplitResult} (hg : GoodResult r)
    (hf : r.fragment = []) : '#' ∉ urlunsplit r := by
  obtain ⟨hs, hnl, _, hhp, _, hhq⟩ := hg
  have habs : ∀ s', '#' ∉ assemblePath s' r.netloc r.path := by
    intro s' hmem'
    rcases mem_assemblePath hmem' with h | h | h
    · exact absurd h (by decide)
    · have := hnl _ h
      simp [netlocDelim] at this
    · exact hhp h
  have hsch : '#' ∉ r.scheme := by
    rcases hs with hs0 | hsv
    · rw [hs0]
      simp
    · exact (validScheme_shape hsv).2.2.2
  intro hmem
  simp only [urlunsplit, hf] at hmem
  rw [if_neg (fun hcon => hcon rfl)] at hmem
  by_cases hq : r.query = []
  · rw [if_neg (fun hcon => hcon hq)] at hmem
    by_cases hsc : r.scheme = []
    · rw [if_neg (fun hcon => hcon hsc)] at hmem
      exact habs _ hmem
    · rw [if_pos hsc] at hmem
      simp only [List.mem_append, List.mem_cons] at hmem
      rcases hmem with h | h | h
      · exact hsch h
      · exact absurd h (by decide)
      · exact habs _ h
  · rw [if_pos hq] at hmem
    simp only [List.mem_append, List.mem_cons] at hmem
    rcases hmem with h | h | h
    · by_cases hsc : r.scheme = []
      · rw [if_neg (fun hcon => hcon hsc)] at h
        exact habs _ h
      · rw [if_pos hsc] at h
        simp only [List.mem_append, List.mem_cons] at h
        rcases h with h | h | h
        · exact hsch h
        · exact absurd h (by decide)
        · exact habs _ h
    · exact absurd h (by decide)
    · exact hhq h

/-! ## Claim theorems about `canon_url` (C6, C7, C10) -/

/-- C6 (counterexample): canonicalization is NOT idempotent.  With CPython's
`urlunsplit`, a URL whose path starts with `//` while the netloc is empty
loses one leading slash pair per pass: `/////x` → `///x` → `/x`. -/
theorem canon_url_not_idem_cex :
    (canon_url (("/////x").toList)).bind canon_url ≠ canon_url (("/////x").toList) := by
  decide

/-- C6 (amended): canonicalization is idempotent on every URL whose
(defragmented) split has a nonempty network location — in particular on every
absolute `http(s)://host/...` URL the crawler handles. -/
theorem canon_url_idem_of_netloc (u : List Char)
    (hn : (urlsplit (urldefrag u)).netloc ≠ []) :
    (canon_url u).bind canon_url = canon_url u := by
  by_cases hr : editReject (urlsplit (urldefrag u)) = true
  · have hnone : canon_url u = none := by simp [canon_url, hr]
    rw [hnone]
    rfl
  · have hc : canon_url u = some (urlunsplit (noFrag (urlsplit (urldefrag u)))) := by
      simp [canon_url, hr]
    have hgood : GoodResult (noFrag (urlsplit (urldefrag u))) := urlsplit_good (urldefrag u)
    have hsplitc := urlsplit_urlunsplit hgood rfl hn
    have hhash : '#' ∉ urlunsplit (noFrag (urlsplit (urldefrag u))) :=
      hash_not_mem_urlunsplit hgood rfl
    have hdef : urldefrag (urlunsplit (noFrag (urlsplit (urldefrag u)))) =
        urlunsplit (noFrag (urlsplit (urldefrag u))) := by
      rw [urldefrag, if_neg hhash]
    have hrr : editReject (noFrag (urlsplit (urldefrag u))) = false := by simpa using hr
    have hfix : canon_url (urlunsplit (noFrag (urlsplit (urldefrag u)))) =
        some (urlunsplit (noFrag (urlsplit (urldefrag u)))) := by
      simp only [canon_url, hdef, hsplitc, hrr]
      rfl
    rw [hc]
    exact hfix

/-- The witness instance for `canon_url_idem_of_netloc`. -/
theorem canon_url_idem_of_netloc_witness :
    ((urlsplit (urldefrag (("http://a/b#f").toList))).netloc ≠ []) ∧
      (canon_url (("http://a/b#f").toList)).bind canon_url =
        canon_url (("http://a/b#f").toList) :=
  ⟨by decide, canon_url_idem_of_netloc _ (by decide)⟩

/-- The wikipedia edit-action URL from the spec's testable property. -/
def editUrl : List Char :=
  ("https://en.wikipedia.org/w/index.php?title=X&action=edit").toList

/-- C7 (counterexample): for a non-edit URL with an uppercase scheme the
result differs from the input (the scheme is lowercased), so "the result
equals the input with only the fragment removed" fails. -/
theorem canon_url_c7_cex :
    ('#' ∉ ("HTTP://x/a").toList) ∧
      editReject (urlsplit (urldefrag (("HTTP://x/a").toList))) = false ∧
      canon_url (("HTTP://x/a").toList) = some (("http://x/a").toList) ∧
      ("http://x/a").toList ≠ ("HTTP://x/a").toList := by
  decide

/-- C7 (amended): `canon_url` rejects the encyclopedia edit-action URL; on a
fragment-free input in split-reassembly normal form that is not edit-rejected
it returns the input itself (so the fragment is stripped and the query kept);
and every successful result is exactly the fragment-free reassembly of the
defragmented input's components and contains no `#`. -/
theorem canon_url_c7 (u : List Char) (h1 : '#' ∉ u)
    (h2 : urlunsplit (noFrag (urlsplit u)) = u)
    (h3 : editReject (urlsplit u) = false) :
    canon_url u = some u ∧ canon_url editUrl = none ∧
      ∀ v c, canon_url v = some c →
        '#' ∉ c ∧ c = urlunsplit (noFrag (urlsplit (urldefrag v))) := by
  refine ⟨?_, by decide, ?_⟩
  · have hdef : urldefrag u = u := by rw [urldefrag, if_neg h1]
    simp only [canon_url, hdef, h3]
    simp [h2]
  · intro v c hcv
    by_cases hr : editReject (urlsplit (urldefrag v)) = true
    · simp [canon_url, hr] at hcv
    · have hv : canon_url v = some (urlunsplit (noFrag (urlsplit (urldefrag v)))) := by
        simp [canon_url, hr]
      rw [hv] at hcv
      injection hcv with hcv
      subst hcv
      exact ⟨hash_not_mem_urlunsplit (urlsplit_good _) rfl, rfl⟩

/-- The witness instance for `canon_url_c7`. -/
theorem canon_url_c7_witness :
    ('#' ∉ ("https://x.org/a?q=1").toList) ∧
      urlunsplit (noFrag (urlsplit (("https://x.org/a?q=1").toList))) =
        ("https://x.org/a?q=1").toList ∧
      editReject (urlsplit (("https://x.org/a?q=1").toList)) = false ∧
      canon_url (("https://x.org/a?q=1").toList) = some (("https://x.org/a?q=1").toList) :=
  ⟨by decide, by decide, by decide,
    (canon_url_c7 _ (by decide) (by decide) (by decide)).1⟩

/-- C10: on any host that does not end in `wikipedia.org`, `canon_url` never
returns `none` — even when the query contains `action=edit` — and yields the
fragment-stripped reassembly. -/
theorem canon_url_non_wikipedia (u : List Char)
    (h : wikipediaOrg.isSuffixOf (urlsplit (urldefrag u)).netloc = false) :
    ∃ c, canon_url u = some c ∧ '#' ∉ c ∧
      c = urlunsplit (noFrag (urlsplit (urldefrag u))) := by
  have hr : editReject (urlsplit (urldefrag u)) = false := by
    simp [editReject, h]
  refine ⟨urlunsplit (noFrag (urlsplit (urldefrag u))), ?_,
    @hash_not_mem_urlunsplit (noFrag (urlsplit (urldefrag u))) (urlsplit_good _) rfl, rfl⟩
  simp [canon_url, hr]

/-- The witness instance for `canon_url_non_wikipedia`: an `action=edit` URL
on a non-wikipedia host is not rejected. -/
theorem canon_url_non_wikipedia_witness :
    (wikipediaOrg.isSuffixOf
        (urlsplit (urldefrag (("https://example.org/w/index.php?title=X&action=edit").toList))).netloc
      = false) ∧
      isSubstrOf actionEdit
        (urlsplit (("https://example.org/w/index.php?title=X&action=edit").toList)).query = true ∧
      ∃ c, canon_url (("https://example.org/w/index.php?title=X&action=edit").toList) = some c ∧
        '#' ∉ c ∧
        c = urlunsplit (noFrag (urlsplit
          (urldefrag (("https://example.org/w/index.php?title=X&action=edit").toList)))) :=
  ⟨by decide, by decide, canon_url_non_wikipedia _ (by decide)⟩

/-! ## The Nanjing topic-scope regex (`TOPIC_RX` / `is_topic_url`)

`TOPIC_RX = ^https://en\.wikipedia\.org/wiki/(?:Nanjing($|_)
  |[^:#]+_(?:in|of|from|at)_Nanjing($|_)|Category:([^:]*Nanjing[^:]*)$)`

modelled as an executable match (existential search over the split point of
the `[^:#]+` group, mirroring the engine's backtracking). -/

def topicRoot : List Char := ("https://en.wikipedia.org/wiki/").toList

def nanjingStr : List Char := ("Nanjing").toList

def joiners : List (List Char) :=
  [("in").toList, ("of").toList, ("from").toList, ("at").toList]

/-- `Nanjing($|_)` matched at the start of `w` (rest unconstrained). -/
def nanjingTail (w : List Char) : Bool :=
  w = nanjingStr || (nanjingStr ++ ['_']).isPrefixOf w

/-- `_(?:in|of|from|at)_Nanjing($|_)` matched at the start of `w`. -/
def joinerTail (w : List Char) : Bool :=
  joiners.any (fun j =>
    ('_' :: (j ++ ['_'])).isPrefixOf w && nanjingTail (w.drop (j.length + 2)))

/-- A character allowed in the `[^:#]+` group. -/
def plainChar (a : Char) : Bool := !(a = ':' || a = '#')

/-- `[^:#]+_(?:in|of|from|at)_Nanjing($|_)` matched against all of `t`. -/
def joinerBranch (t : List Char) : Bool :=
  (List.range t.length).any (fun k =>
    decide (0 < k) && (t.take k).all plainChar && joinerTail (t.drop k))

/-- `Category:([^:]*Nanjing[^:]*)$` matched against all of `t`. -/
def categoryBranch (t : List Char) : Bool :=
  ("Category:").toList.isPrefixOf t &&
    (t.drop 9).all (fun a => !(a = ':')) && isSubstrOf nanjingStr (t.drop 9)

/-- `is_topic_url` from `crawler/app.py`: `bool(TOPIC_RX.search(u))`. -/
def is_topic_url (u : List Char) : Bool :=
  topicRoot.isPrefixOf u &&
    (nanjingTail (u.drop topicRoot.length) ||
      joinerBranch (u.drop topicRoot.length) ||
      categoryBranch (u.drop topicRoot.length))

/-! ## Bridging Boolean string tests and structural decompositions -/

theorem isPrefixOf_decomp {l : List Char} :
    ∀ {u : List Char}, l.isPrefixOf u = true ↔ ∃ t, u = l ++ t := by
  induction l with
  | nil =>
    intro u
    simp [List.isPrefixOf]
  | cons a l ih =>
    intro u
    cases u with
    | nil =>
      simp [List.isPrefixOf]
    | cons b t =>
      simp only [List.isPrefixOf, Bool.and_eq_true, beq_iff_eq]
      constructor
      · intro ⟨hab, hrec⟩
        obtain ⟨t2, rfl⟩ := ih.mp hrec
        exact ⟨t2, by rw [hab, List.cons_append]⟩
      · intro ⟨t2, ht2⟩
        rw [List.cons_append] at ht2
        injection ht2 with h1 h2
        exact ⟨h1.symm, ih.mpr ⟨t2, h2⟩⟩

theorem isSubstrOf_iff {n : List Char} :
    ∀ {h : List Char}, isSubstrOf n h = true ↔ ∃ x y, h = x ++ n ++ y := by
  intro h
  induction h with
  | nil =>
    simp only [isSubstrOf, List.isEmpty_iff]
    constructor
    · intro hn
      exact ⟨[], [], by simp [hn]⟩
    · intro ⟨x, y, hxy⟩
      rcases List.append_eq_nil.mp hxy.symm with ⟨hxn, hy⟩
      exact (List.append_eq_nil.mp hxn).2
  | cons a t ih =>
    simp only [isSubstrOf, Bool.or_eq_true]
    constructor
    · intro hc
      rcases hc with hc | hc
      · obtain ⟨y, hy⟩ := isPrefixOf_decomp.mp hc
        exact ⟨[], y, by simp [hy]⟩
      · obtain ⟨x, y, rfl⟩ := ih.mp hc
        exact ⟨a :: x, y, by simp⟩
    · intro ⟨x, y, hxy⟩
      cases x with
      | nil =>
        left
        simp only [List.nil_append] at hxy
        exact isPrefixOf_decomp.mpr ⟨y, hxy⟩
      | cons a0 x0 =>
        right
        rw [List.cons_append, List.cons_append] at hxy
        injection hxy with h1 h2
        exact ih.mpr ⟨x0, y, h2⟩

/-! ## C8: the topic-scope characterizations -/

/-- The scope predicate as the claim's words read literally: title equals the
place name, is prefixed by it, is suffixed by it via a joiner, or is a
category page containing it.  (Spec-side definition, for comparison with
`is_topic_url`.) -/
def topicScopeClaimed (u : List Char) : Prop :=
  ∃ t, u = topicRoot ++ t ∧
    (t = nanjingStr ∨ nanjingStr <+: t ∨
      (∃ j ∈ joiners, ('_' :: (j ++ '_' :: nanjingStr)) <:+ t) ∨
      (∃ c, t = ("Category:").toList ++ c ∧ ∃ x y, c = x ++ nanjingStr ++ y))

/-- The exact language of `TOPIC_RX`, structurally. -/
def topicScopeSpec (u : List Char) : Prop :=
  ∃ t, u = topicRoot ++ t ∧
    ((t = nanjingStr ∨ ∃ rest, t = nanjingStr ++ '_' :: rest) ∨
      (∃ A j rest, j ∈ joiners ∧ A ≠ [] ∧ (∀ a ∈ A, plainChar a = true) ∧
        (t = A ++ '_' :: (j ++ '_' :: nanjingStr) ∧ rest = [] ∨
          t = A ++ '_' :: (j ++ '_' :: (nanjingStr ++ '_' :: rest)))) ∨
      (∃ c, t = ("Category:").toList ++ c ∧ ':' ∉ c ∧ ∃ x y, c = x ++ nanjingStr ++ y))

/-- C8 (counterexample): the title `Nanjingg` IS prefixed by the place name,
but `is_topic_url` rejects it — the regex demands a word boundary after
`Nanjing`, so the claimed "exactly equals/prefixed/suffixed" reading fails. -/
theorem is_topic_url_c8_cex :
    topicScopeClaimed (("https://en.wikipedia.org/wiki/Nanjingg").toList) ∧
      is_topic_url (("https://en.wikipedia.org/wiki/Nanjingg").toList) = false := by
  constructor
  · exact ⟨("Nanjingg").toList, by decide, Or.inr (Or.inl ⟨['g'], by decide⟩)⟩
  · decide

theorem nanjingTail_iff {t : List Char} :
    nanjingTail t = true ↔ (t = nanjingStr ∨ ∃ rest, t = nanjingStr ++ '_' :: rest) := by
  simp only [nanjingTail, Bool.or_eq_true, decide_eq_true_eq]
  constructor
  · intro hc
    rcases hc with hc | hc
    · exact Or.inl hc
    · obtain ⟨rest, hrest⟩ := isPrefixOf_decomp.mp hc
      refine Or.inr ⟨rest, ?_⟩
      rw [hrest, List.append_assoc]
      rfl
  · intro hc
    rcases hc with hc | ⟨rest, hrest⟩
    · exact Or.inl hc
    · refine Or.inr (isPrefixOf_decomp.mpr ⟨rest, ?_⟩)
      rw [hrest, List.append_assoc]
      rfl

theorem joinerTail_iff {w : List Char} :
    joinerTail w = true ↔
      ∃ j ∈ joiners, ∃ w1, w = '_' :: (j ++ '_' :: w1) ∧ nanjingTail w1 = true := by
  simp only [joinerTail, List.any_eq_true, Bool.and_eq_true]
  constructor
  · intro ⟨j, hj, hpre, htail⟩
    obtain ⟨w1, hw1⟩ := isPrefixOf_decomp.mp hpre
    have hlen : ('_' :: (j ++ ['_'])).length = j.length + 2 := by
      simp
    have hdrop : w.drop (j.length + 2) = w1 := by
      rw [hw1, ← hlen, List.drop_left]
    refine ⟨j, hj, w1, ?_, hdrop ▸ htail⟩
    rw [hw1]
    simp
  · intro ⟨j, hj, w1, hw, htail⟩
    have hw' : w = ('_' :: (j ++ ['_'])) ++ w1 := by
      rw [hw]
      simp
    have hlen : ('_' :: (j ++ ['_'])).length = j.length + 2 := by
      simp
    refine ⟨j, hj, isPrefixOf_decomp.mpr ⟨w1, hw'⟩, ?_⟩
    rw [hw', ← hlen, List.drop_left]
    exact htail

theorem joinerBranch_intro {t A j w1 : List Char} (hj : j ∈ joiners) (hAne : A ≠ [])
    (hAp : ∀ a ∈ A, plainChar a = true) (ht : t = A ++ '_' :: (j ++ '_' :: w1))
    (hw1 : nanjingTail w1 = true) : joinerBranch t = true := by
  simp only [joinerBranch, List.any_eq_true, List.mem_range, Bool.and_eq_true,
    decide_eq_true_eq]
  refine ⟨A.length, ?_, ⟨List.length_pos.mpr hAne, ?_⟩, ?_⟩
  · rw [ht]
    simp only [List.length_append, List.length_cons]
    omega
  · rw [ht, List.take_left, List.all_eq_true]
    exact hAp
  · rw [ht, List.drop_left]
    exact joinerTail_iff.mpr ⟨j, hj, w1, rfl, hw1⟩

/-- C8: `is_topic_url` decides exactly the structural language of
`TOPIC_RX`, and the spec's three examples evaluate as stated. -/
theorem is_topic_url_c8 :
    is_topic_url (("https://en.wikipedia.org/wiki/Nanjing").toList) = true ∧
    is_topic_url (("https://en.wikipedia.org/wiki/Shanghai").toList) = false ∧
    is_topic_url (("https://en.wikipedia.org/wiki/Category:History_of_Nanjing").toList) = true ∧
    ∀ u, is_topic_url u = true ↔ topicScopeSpec u := by
  refine ⟨by decide, by decide, by decide, ?_⟩
  intro u
  simp only [is_topic_url, Bool.and_eq_true, Bool.or_eq_true]
  constructor
  · intro ⟨hpre, hbody⟩
    obtain ⟨t, rfl⟩ := isPrefixOf_decomp.mp hpre
    rw [List.drop_left] at hbody
    refine ⟨t, rfl, ?_⟩
    rcases hbody with (h1 | h2) | h3
    · exact Or.inl (nanjingTail_iff.mp h1)
    · right; left
      simp only [joinerBranch, List.any_eq_true, List.mem_range, Bool.and_eq_true,
        decide_eq_true_eq] at h2
      obtain ⟨k, hk, ⟨hkpos, hall⟩, htail⟩ := h2
      obtain ⟨j, hj, w1, hw1, hnt⟩ := joinerTail_iff.mp htail
      have hA : t = t.take k ++ t.drop k := (List.take_append_drop k t).symm
      have hAne : t.take k ≠ [] := by
        intro he
        have := congrArg List.length he
        simp only [List.length_take, List.length_nil] at this
        omega
      have hAp : ∀ a ∈ t.take k, plainChar a = true := List.all_eq_true.mp hall
      rcases nanjingTail_iff.mp hnt with hn | ⟨rest, hrest⟩
      · refine ⟨t.take k, j, [], hj, hAne, hAp, Or.inl ⟨?_, rfl⟩⟩
        exact hA.trans (by rw [hw1, hn])
      · refine ⟨t.take k, j, rest, hj, hAne, hAp, Or.inr ?_⟩
        exact hA.trans (by rw [hw1, hrest])
    · right; right
      rw [categoryBranch] at h3
      obtain ⟨h34, hsub⟩ := Bool.and_eq_true_iff.mp h3
      obtain ⟨hpre9, hnc⟩ := Bool.and_eq_true_iff.mp h34
      obtain ⟨c, hc⟩ := isPrefixOf_decomp.mp hpre9
      have hdrop9 : t.drop 9 = c := by
        rw [hc]
        have : (("Category:").toList).length = 9 := by decide
        rw [← this, List.drop_left]
      refine ⟨c, hc, ?_, ?_⟩
      · intro hmem
        have := List.all_eq_true.mp hnc ':' (hdrop9 ▸ hmem)
        simp at this
      · rw [hdrop9] at hsub
        exact isSubstrOf_iff.mp hsub
  · rintro ⟨t, rfl, hcases⟩
    refine ⟨isPrefixOf_decomp.mpr ⟨t, rfl⟩, ?_⟩
    rw [List.drop_left]
    rcases hcases with h1 | ⟨A, j, rest, hj, hAne, hAp, hsh⟩ | ⟨c, hc, hnc, x, y, hxy⟩
    · exact Or.inl (Or.inl (nanjingTail_iff.mpr h1))
    · left; right
      rcases hsh with ⟨ht, _⟩ | ht
      · exact joinerBranch_intro hj hAne hAp ht (nanjingTail_iff.mpr (Or.inl rfl))
      · exact joinerBranch_intro hj hAne hAp ht (nanjingTail_iff.mpr (Or.inr ⟨rest, rfl⟩))
    · right
      rw [categoryBranch]
      rw [Bool.and_eq_true_iff, Bool.and_eq_true_iff]
      have hdrop9 : t.drop 9 = c := by
        rw [hc]
        have : (("Category:").toList).length = 9 := by decide
        rw [← this, List.drop_left]
      refine ⟨⟨isPrefixOf_decomp.mpr ⟨c, hc⟩, ?_⟩, ?_⟩
      · rw [hdrop9, List.all_eq_true]
        intro a ha
        simp only [Bool.not_eq_true']
        rw [decide_eq_false_iff_not]
        intro he
        exact hnc (he ▸ ha)
      · rw [hdrop9]
        exact isSubstrOf_iff.mpr ⟨x, y, hxy⟩

/-! ## `extract_links` (C9)

BeautifulSoup's HTML parsing is abstracted: a document is the list of its
anchor elements, each carrying the container its CSS selector dispatches on
(`#mw-pages`, `#mw-subcategories`, or anything else), its `href` attribute
(if present) and its text (`get_text` is abstracted to this field, so the
separator/strip details of `get_text(" ", strip=True)` are not modelled).
`urljoin` against the fixed base `https://en.wikipedia.org` is modelled for
scheme-relative, root-relative and absolute references; relative references
without a leading slash (which the selected hrefs never are) and dot-segment
normalization are not modelled. -/

inductive Container where
  | mwPages
  | mwSubcategories
  | other
deriving DecidableEq

structure Anchor where
  container : Container
  href : Option (List Char)
  text : List Char
deriving DecidableEq

def wikiBase : List Char := ("https://en.wikipedia.org").toList

/-- `urllib.parse.urljoin("https://en.wikipedia.org", href)` for the href
shapes this code selects. -/
def urljoin_model (href : List Char) : List Char :=
  if href.take 2 = ['/', '/'] then ("https:").toList ++ href
  else if href.take 1 = ['/'] then wikiBase ++ href
  else href

/-- The non-article namespace paths skipped early by `abs_wiki`. -/
def nonArticleNamespaces : List (List Char) :=
  [("/wiki/Talk:").toList, ("/wiki/Help:").toList, ("/wiki/File:").toList,
   ("/wiki/Special:").toList, ("/wiki/Template:").toList, ("/wiki/Portal:").toList]

/-- `abs_wiki` from `extract_links`: reject missing/non-`/wiki/` hrefs and the
listed namespaces, then join with the base and canonicalize. -/
def abs_wiki (href : Option (List Char)) : Option (List Char) :=
  match href with
  | none => none
  | some h =>
    if ¬ (("/wiki/").toList.isPrefixOf h = true) then none
    else if nonArticleNamespaces.any (fun pfx => pfx.isPrefixOf h) then none
    else canon_url (urljoin_model h)

/-- `is_category` from `extract_links`: URL shape dispatch on the base URL. -/
def is_category_url (base : List Char) : Bool :=
  isSubstrOf (("/wiki/Category:").toList) base ||
    (isSubstrOf (("/w/index.php").toList) base &&
      isSubstrOf (("title=Category:").toList) base)

/-- Loop 1: `#mw-pages a[href^='/wiki/']`, keep main-namespace members only
(no `:` in the title after `/wiki/`). -/
def categoryMembers (doc : List Anchor) : List (List Char × List Char) :=
  doc.filterMap (fun a =>
    (a.href).bind (fun h =>
      if a.container = Container.mwPages ∧ ("/wiki/").toList.isPrefixOf h = true then
        (abs_wiki (some h)).bind (fun u =>
          if ':' ∈ (urlsplit u).path.drop 6 then none
          else some (u, a.text.take 200))
      else none))

/-- Loop 2: `#mw-subcategories a[href^='/wiki/Category:']`, kept only when
the anchor text contains `Nanjing`. -/
def categorySubcats (doc : List Anchor) : List (List Char × List Char) :=
  doc.filterMap (fun a =>
    (a.href).bind (fun h =>
      if a.container = Container.mwSubcategories ∧
          ("/wiki/Category:").toList.isPrefixOf h = true then
        (abs_wiki (some h)).bind (fun u =>
          if isSubstrOf nanjingStr a.text then some (u, a.text.take 200) else none)
      else none))

/-- Loop 3: `#mw-pages a[href*='/w/index.php'][href*='title=Category:']`,
joined and canonicalized, with the fixed anchor `cat-page`. -/
def categoryPagination (doc : List Anchor) : List (List Char × List Char) :=
  doc.filterMap (fun a =>
    (a.href).bind (fun h =>
      if a.container = Container.mwPages ∧ isSubstrOf (("/w/index.php").toList) h = true ∧
          isSubstrOf (("title=Category:").toList) h = true then
        (canon_url (urljoin_model h)).bind (fun u => some (u, ("cat-page").toList))
      else none))

/-- Article pages: every `a[href^='/wiki/']`, kept only if topic-scoped. -/
def articleLinks (doc : List Anchor) : List (List Char × List Char) :=
  doc.filterMap (fun a =>
    (a.href).bind (fun h =>
      if ("/wiki/").toList.isPrefixOf h = true then
        (abs_wiki (some h)).bind (fun u =>
          if is_topic_url u then some (u, a.text.take 200) else none)
      else none))

/-- `extract_links` from `crawler/app.py`. -/
def extract_links (base : List Char) (doc : List Anchor) : List (List Char × List Char) :=
  if is_category_url base then
    categoryMembers doc ++ categorySubcats doc ++ categoryPagination doc
  else
    articleLinks doc

/-! ## Membership characterizations of the extraction loops -/

theorem mem_categoryMembers {doc : List Anchor} {u anch : List Char} :
    (u, anch) ∈ categoryMembers doc ↔
      ∃ a ∈ doc, ∃ h, a.href = some h ∧ a.container = Container.mwPages ∧
        ("/wiki/").toList.isPrefixOf h = true ∧ abs_wiki (some h) = some u ∧
        ':' ∉ (urlsplit u).path.drop 6 ∧ anch = a.text.take 200 := by
  rw [categoryMembers, List.mem_filterMap]
  constructor
  · rintro ⟨a, ha, hfa⟩
    rcases e : a.href with _ | h
    · rw [e] at hfa
      exact absurd hfa (by simp)
    · rw [e, Option.some_bind] at hfa
      by_cases hcond : a.container = Container.mwPages ∧ ("/wiki/").toList.isPrefixOf h = true
      · rw [if_pos hcond] at hfa
        rcases e2 : abs_wiki (some h) with _ | u0
        · rw [e2] at hfa
          exact absurd hfa (by simp)
        · rw [e2, Option.some_bind] at hfa
          by_cases hcol : ':' ∈ (urlsplit u0).path.drop 6
          · rw [if_pos hcol] at hfa
            exact absurd hfa (by simp)
          · rw [if_neg hcol] at hfa
            injection hfa with hfa
            injection hfa with hu hanch
            subst hu
            exact ⟨a, ha, h, e, hcond.1, hcond.2, e2, hcol, hanch.symm⟩
      · rw [if_neg hcond] at hfa
        exact absurd hfa (by simp)
  · rintro ⟨a, ha, h, he, hc, hp, habs, hcol, hanch⟩
    refine ⟨a, ha, ?_⟩
    rw [he, Option.some_bind, if_pos ⟨hc, hp⟩, habs, Option.some_bind, if_neg hcol, hanch]

theorem mem_categorySubcats {doc : List Anchor} {u anch : List Char} :
    (u, anch) ∈ categorySubcats doc ↔
      ∃ a ∈ doc, ∃ h, a.href = some h ∧ a.container = Container.mwSubcategories ∧
        ("/wiki/Category:").toList.isPrefixOf h = true ∧ abs_wiki (some h) = some u ∧
        isSubstrOf nanjingStr a.text = true ∧ anch = a.text.take 200 := by
  rw [categorySubcats, List.mem_filterMap]
  constructor
  · rintro ⟨a, ha, hfa⟩
    rcases e : a.href with _ | h
    · rw [e] at hfa
      exact absurd hfa (by simp)
    · rw [e, Option.some_bind] at hfa
      by_cases hcond : a.container = Container.mwSubcategories ∧
          ("/wiki/Category:").toList.isPrefixOf h = true
      · rw [if_pos hcond] at hfa
        rcases e2 : abs_wiki (some h) with _ | u0
        · rw [e2] at hfa
          exact absurd hfa (by simp)
        · rw [e2, Option.some_bind] at hfa
          by_cases hn : isSubstrOf nanjingStr a.text = true
          · rw [if_pos hn] at hfa
            injection hfa with hfa
            injection hfa with hu hanch
            subst hu
            exact ⟨a, ha, h, e, hcond.1, hcond.2, e2, hn, hanch.symm⟩
          · rw [if_neg hn] at hfa
            exact absurd hfa (by simp)
      · rw [if_neg hcond] at hfa
        exact absurd hfa (by simp)
  · rintro ⟨a, ha, h, he, hc, hp, habs, hn, hanch⟩
    refine ⟨a, ha, ?_⟩
    rw [he, Option.some_bind, if_pos ⟨hc, hp⟩, habs, Option.some_bind, if_pos hn, hanch]

theorem mem_categoryPagination {doc : List Anchor} {u anch : List Char} :
    (u, anch) ∈ categoryPagination doc ↔
      ∃ a ∈ doc, ∃ h, a.href = some h ∧ a.container = Container.mwPages ∧
        isSubstrOf (("/w/index.php").toList) h = true ∧
        isSubstrOf (("title=Category:").toList) h = true ∧
        canon_url (urljoin_model h) = some u ∧ anch = ("cat-page").toList := by
  rw [categoryPagination, List.mem_filterMap]
  constructor
  · rintro ⟨a, ha, hfa⟩
    rcases e : a.href with _ | h
    · rw [e] at hfa
      exact absurd hfa (by simp)
    · rw [e, Option.some_bind] at hfa
      by_cases hcond : a.container = Container.mwPages ∧
          isSubstrOf (("/w/index.php").toList) h = true ∧
          isSubstrOf (("title=Category:").toList) h = true
      · rw [if_pos hcond] at hfa
        rcases e2 : canon_url (urljoin_model h) with _ | u0
        · rw [e2] at hfa
          exact absurd hfa (by simp)
        · rw [e2, Option.some_bind] at hfa
          injection hfa with hfa
          injection hfa with hu hanch
          subst hu
          exact ⟨a, ha, h, e, hcond.1, hcond.2.1, hcond.2.2, e2, hanch.symm⟩
      · rw [if_neg hcond] at hfa
        exact absurd hfa (by simp)
  · rintro ⟨a, ha, h, he, hc, hw, ht, hcu, hanch⟩
    refine ⟨a, ha, ?_⟩
    rw [he, Option.some_bind, if_pos ⟨hc, hw, ht⟩, hcu, Option.some_bind, hanch]

/-- `abs_wiki` successes are canonicalization successes. -/
theorem abs_wiki_some {oh : Option (List Char)} {u : List Char}
    (h : abs_wiki oh = some u) : ∃ raw, canon_url raw = some u := by
  rcases oh with _ | h0
  · exact absurd h (by simp [abs_wiki])
  · rw [abs_wiki] at h
    by_cases h1 : ¬ ("/wiki/").toList.isPrefixOf h0 = true
    · rw [if_pos h1] at h
      exact absurd h (by simp)
    · rw [if_neg h1] at h
      by_cases h2 : nonArticleNamespaces.any (fun pfx => pfx.isPrefixOf h0) = true
      · rw [if_pos h2] at h
        exact absurd h (by simp)
      · rw [if_neg h2] at h
        exact ⟨urljoin_model h0, h⟩

/-- A category-page fixture: a main-namespace member, a `Talk:` link, a
non-topic member, a same-topic subcategory, an unrelated subcategory, and a
pagination link. -/
def catFixture : List Anchor :=
  [⟨Container.mwPages, some (("/wiki/Nanjing_Wall").toList), ("Wall").toList⟩,
   ⟨Container.mwPages, some (("/wiki/Talk:Nanjing").toList), ("Talk page").toList⟩,
   ⟨Container.mwPages, some (("/wiki/Paris").toList), ("Paris").toList⟩,
   ⟨Container.mwSubcategories, some (("/wiki/Category:Monuments_in_Nanjing").toList),
     ("Nanjing Monuments").toList⟩,
   ⟨Container.mwSubcategories, some (("/wiki/Category:Something_else").toList),
     ("Other").toList⟩,
   ⟨Container.mwPages,
     some (("/w/index.php?title=Category:Monuments_in_Nanjing&page=2").toList),
     ("next").toList⟩]

def catBase : List Char :=
  ("https://en.wikipedia.org/wiki/Category:Monuments_in_Nanjing").toList

/-- C9: on a category page the extractor returns exactly the three classes —
main-namespace members (not topic-filtered), subcategories whose anchor text
contains the place name, and category pagination links — each characterized
below and all canonicalized; the fixture yields exactly the member links
(including the non-topic `Paris`), the same-topic subcategory and the
pagination link, never the unrelated subcategory. -/
theorem extract_links_c9 :
    (∀ base doc, is_category_url base = true →
      extract_links base doc =
        categoryMembers doc ++ categorySubcats doc ++ categoryPagination doc) ∧
    (∀ doc u anch, (u, anch) ∈ categoryMembers doc ↔
      ∃ a ∈ doc, ∃ h, a.href = some h ∧ a.container = Container.mwPages ∧
        ("/wiki/").toList.isPrefixOf h = true ∧ abs_wiki (some h) = some u ∧
        ':' ∉ (urlsplit u).path.drop 6 ∧ anch = a.text.take 200) ∧
    (∀ doc u anch, (u, anch) ∈ categorySubcats doc ↔
      ∃ a ∈ doc, ∃ h, a.href = some h ∧ a.container = Container.mwSubcategories ∧
        ("/wiki/Category:").toList.isPrefixOf h = true ∧ abs_wiki (some h) = some u ∧
        isSubstrOf nanjingStr a.text = true ∧ anch = a.text.take 200) ∧
    (∀ doc u anch, (u, anch) ∈ categoryPagination doc ↔
      ∃ a ∈ doc, ∃ h, a.href = some h ∧ a.container = Container.mwPages ∧
        isSubstrOf (("/w/index.php").toList) h = true ∧
        isSubstrOf (("title=Category:").toList) h = true ∧
        canon_url (urljoin_model h) = some u ∧ anch = ("cat-page").toList) ∧
    (∀ base doc u anch, is_category_url base = true →
      (u, anch) ∈ extract_links base doc → ∃ raw, canon_url raw = some u) ∧
    extract_links catBase catFixture =
      [(("https://en.wikipedia.org/wiki/Nanjing_Wall").toList, ("Wall").toList),
       (("https://en.wikipedia.org/wiki/Paris").toList, ("Paris").toList),
       (("https://en.wikipedia.org/wiki/Category:Monuments_in_Nanjing").toList,
         ("Nanjing Monuments").toList),
       (("https://en.wikipedia.org/w/index.php?title=Category:Monuments_in_Nanjing&page=2").toList,
         ("cat-page").toList)] ∧
    is_topic_url (("https://en.wikipedia.org/wiki/Paris").toList) = false := by
  refine ⟨?_, ?_, ?_, ?_, ?_, by decide, by decide⟩
  · intro base doc hb
    rw [extract_links, if_pos hb]
  · intro doc u anch
    exact mem_categoryMembers
  · intro doc u anch
    exact mem_categorySubcats
  · intro doc u anch
    exact mem_categoryPagination
  · intro base doc u anch hb hmem
    rw [extract_links, if_pos hb] at hmem
    rcases List.mem_append.mp hmem with hm | hm
    · rcases List.mem_append.mp hm with hm2 | hm2
      · obtain ⟨a, _, h, _, _, _, habs, _, _⟩ := mem_categoryMembers.mp hm2
        exact abs_wiki_some habs
      · obtain ⟨a, _, h, _, _, _, habs, _, _⟩ := mem_categorySubcats.mp hm2
        exact abs_wiki_some habs
    · obtain ⟨a, _, h, _, _, _, _, hcu, _⟩ := mem_categoryPagination.mp hm
      exact ⟨urljoin_model h, hcu⟩

/-! ## The persistence layer: pages, fetch log, links, raw artifacts

The SQLite store modelled as explicit lists.  `id INTEGER PRIMARY KEY` is a
fresh-id counter; timestamps are abstract `Nat` ticks; `bytes` are `List Char`.
-/

structure PageRow where
  id : Nat
  url : List Char
  first_seen : Option Nat
  last_seen : Option Nat
  last_status : Option Int
  etag : Option (List Char)
  last_modified : Option (List Char)
  content_hash : Option (List Char)
  depth : Nat
deriving DecidableEq

structure FetchLogEntry where
  page_id : Nat
  fetched_at : Nat
  status : Int
  bytes : Nat
  error : Option (List Char)
deriving DecidableEq

/-- The `{id}.meta.json` sidecar written by `write_meta` on the 200 path. -/
structure MetaJson where
  url : List Char
  depth : Nat
  status : Int
  etag : Option (List Char)
  last_modified : Option (List Char)
  content_hash : List Char
  fetched_at : Nat
deriving DecidableEq

structure CrawlDb where
  pages : List PageRow
  nextId : Nat
  fetch_log : List FetchLogEntry
  links : List (Nat × List Char × List Char)
  rawFiles : List (Nat × List Char)
  metaFiles : List (Nat × MetaJson)
deriving DecidableEq

def find_page (db : CrawlDb) (url : List Char) : Option PageRow :=
  db.pages.find? (fun r => r.url = url)

/-- `upsert_page(conn, url, depth)`: return the existing row's
`(id, etag, last_modified)` unchanged, or insert a fresh row with
`first_seen = now` and empty validators. -/
def upsert_page (db : CrawlDb) (url : List Char) (depth : Nat) (now : Nat) :
    (Nat × Option (List Char) × Option (List Char)) × CrawlDb :=
  match find_page db url with
  | some r => ((r.id, r.etag, r.last_modified), db)
  | none =>
    let r : PageRow := ⟨db.nextId, url, some now, none, none, none, none, none, depth⟩
    ((r.id, r.etag, r.last_modified), { db with pages := db.pages ++ [r], nextId := db.nextId + 1 })

/-- `save_fetch_log`: append-only audit row. -/
def save_fetch_log (db : CrawlDb) (pid : Nat) (status : Int) (nbytes : Nat)
    (err : Option (List Char)) (now : Nat) : CrawlDb :=
  { db with fetch_log := db.fetch_log ++ [⟨pid, now, status, nbytes, err⟩] }

/-- `UPDATE pages SET last_seen=?, last_status=? WHERE id=?`. -/
def touchPage (db : CrawlDb) (pid : Nat) (status : Int) (now : Nat) : CrawlDb :=
  { db with pages := db.pages.map (fun r =>
      if r.id = pid then { r with last_seen := some now, last_status := some status } else r) }

/-- The full-row update on the 200 path. -/
def updatePage200 (db : CrawlDb) (pid : Nat) (etag lm : Option (List Char))
    (chash : List Char) (now : Nat) : CrawlDb :=
  { db with pages := db.pages.map (fun r =>
      if r.id = pid then
        { r with last_seen := some now, last_status := some 200, etag := etag, last_modified := lm, content_hash := some chash }
      else r) }

/-- `write_raw` / `write_meta`: atomic overwrite at the page-id key. -/
def storeRaw (db : CrawlDb) (pid : Nat) (data : List Char) : CrawlDb :=
  { db with rawFiles := (pid, data) :: db.rawFiles.filter (fun pr => ¬ pr.1 = pid) }

def storeMeta (db : CrawlDb) (pid : Nat) (m : MetaJson) : CrawlDb :=
  { db with metaFiles := (pid, m) :: db.metaFiles.filter (fun pr => ¬ pr.1 = pid) }

/-- `INSERT OR IGNORE INTO links` (primary key `(from_page, to_url)`). -/
def insertLink (ls : List (Nat × List Char × List Char)) (pid : Nat)
    (to_url anchor : List Char) : List (Nat × List Char × List Char) :=
  if ls.any (fun l => l.1 = pid ∧ l.2.1 = to_url) then ls
  else ls ++ [(pid, to_url, anchor)]

structure HttpResponse where
  status : Int
  contentType : List Char
  etag : Option (List Char)
  last_modified : Option (List Char)
  body : List Char
  doc : List Anchor
deriving DecidableEq

/-- The worker's per-response handling (`crawler/app.py` lines 313–389),
given the already-upserted page id: the 304 short-circuit, the
non-200/non-HTML skip, and the 200 path (artifact + meta writes, row update,
fetch log, depth/stop-gated link extraction).  `allowed` abstracts
`allowed_by_patterns` over the compiled config patterns, `hash` abstracts
`hashlib.md5(..).hexdigest()`.  Returns the new store and the
`(url, depth)` items put on the frontier. -/
def handleResponse (maxDepth : Nat) (stop : Bool) (allowed : List Char → Bool)
    (seen : List (List Char)) (hash : List Char → List Char)
    (pid : Nat) (url : List Char) (depth : Nat) (resp : HttpResponse) (now : Nat)
    (db : CrawlDb) : CrawlDb × List (List Char × Nat) :=
  if resp.status = 304 then
    (touchPage (save_fetch_log db pid 304 0 none now) pid 304 now, [])
  else if resp.status ≠ 200 ∨ ¬ (isSubstrOf (("text/html").toList) resp.contentType = true) then
    (touchPage
      (save_fetch_log db pid resp.status 0
        (some ((("ctype=").toList) ++ resp.contentType)) now)
      pid resp.status now, [])
  else
    let chash := hash resp.body
    let db1 := storeRaw db pid resp.body
    let db2 := storeMeta db1 pid ⟨url, depth, 200, resp.etag, resp.last_modified, chash, now⟩
    let db3 := updatePage200 db2 pid resp.etag resp.last_modified chash now
    let db4 := save_fetch_log db3 pid resp.status resp.body.length none now
    if depth + 1 ≤ maxDepth ∧ stop = false then
      let links := extract_links url resp.doc
      let db5 := { db4 with
        links := links.foldl (fun ls pr => insertLink ls pid pr.1 (pr.2.take 200)) db4.links }
      (db5, (links.filter (fun pr => allowed pr.1 && ¬ seen.contains pr.1)).map
        (fun pr => (pr.1, depth + 1)))
    else (db4, [])

/-- C4: on a `304 Not Modified` response the handler appends exactly one
`FetchLogEntry(status=304, bytes=0)`, sets the page's `last_seen` and
`last_status`, leaves `etag`/`last_modified`/`content_hash` and every other
row untouched, writes no raw artifact or sidecar, records no links, and
enqueues nothing. -/
theorem handleResponse_304_c4 (maxDepth : Nat) (stop : Bool)
    (allowed : List Char → Bool) (seen : List (List Char))
    (hash : List Char → List Char) (pid : Nat) (url : List Char) (depth : Nat)
    (ct : List Char) (et lm : Option (List Char)) (body : List Char)
    (doc : List Anchor) (now : Nat) (db : CrawlDb) :
    (handleResponse maxDepth stop allowed seen hash pid url depth
        ⟨304, ct, et, lm, body, doc⟩ now db).2 = [] ∧
    (handleResponse maxDepth stop allowed seen hash pid url depth
        ⟨304, ct, et, lm, body, doc⟩ now db).1 =
      { db with
        fetch_log := db.fetch_log ++ [⟨pid, now, 304, 0, none⟩],
        pages := db.pages.map (fun r =>
          if r.id = pid then { r with last_seen := some now, last_status := some 304 }
          else r) } ∧
    (∀ r' ∈ (handleResponse maxDepth stop allowed seen hash pid url depth
        ⟨304, ct, et, lm, body, doc⟩ now db).1.pages,
      ∃ r ∈ db.pages, r'.id = r.id ∧ r'.url = r.url ∧ r'.first_seen = r.first_seen ∧
        r'.etag = r.etag ∧ r'.last_modified = r.last_modified ∧
        r'.content_hash = r.content_hash ∧ r'.depth = r.depth ∧
        (r.id = pid → r'.last_seen = some now ∧ r'.last_status = some 304) ∧
        (r.id ≠ pid → r' = r)) := by
  have he : handleResponse maxDepth stop allowed seen hash pid url depth
      ⟨304, ct, et, lm, body, doc⟩ now db =
      (touchPage (save_fetch_log db pid 304 0 none now) pid 304 now, []) := by
    rw [handleResponse, if_pos rfl]
  refine ⟨by rw [he], by rw [he]; rfl, ?_⟩
  intro r' hr'
  rw [he] at hr'
  simp only [touchPage, save_fetch_log, List.mem_map] at hr'
  obtain ⟨r, hr, hre⟩ := hr'
  refine ⟨r, hr, ?_⟩
  by_cases hid : r.id = pid
  · rw [if_pos hid] at hre
    subst hre
    refine ⟨rfl, rfl, rfl, rfl, rfl, rfl, rfl, fun _ => ⟨rfl, rfl⟩, fun hne => absurd hid hne⟩
  · rw [if_neg hid] at hre
    subst hre
    exact ⟨rfl, rfl, rfl, rfl, rfl, rfl, rfl, fun hh => absurd hh hid, fun _ => rfl⟩

theorem find?_append_of_none {α : Type} {p : α → Bool} {l₁ l₂ : List α}
    (h : l₁.find? p = none) : (l₁ ++ l₂).find? p = l₂.find? p := by
  induction l₁ with
  | nil => rfl
  | cons a t ih =>
    by_cases ha : p a = true
    · rw [List.find?_cons_of_pos _ ha] at h
      exact absurd h (by simp)
    · rw [List.find?_cons_of_neg _ (by simpa using ha)] at h
      rw [List.cons_append, List.find?_cons_of_neg _ (by simpa using ha)]
      exact ih h

theorem find_page_append (db : CrawlDb) (url : List Char) (r : PageRow) (n : Nat)
    (he : find_page db url = none) (hr : r.url = url) :
    find_page { db with pages := db.pages ++ [r], nextId := n } url = some r := by
  unfold find_page at he ⊢
  show (db.pages ++ [r]).find? (fun x => x.url = url) = some r
  rw [find?_append_of_none he, List.find?_cons_of_pos _ (by simp [hr])]

/-- C5: `upsert_page` is idempotent — the second call returns the same
identity, changes nothing, and exactly one row for the URL exists; a first
call on a new URL inserts one row with `first_seen = now`, the given depth
and empty validators, returning `(fresh id, none, none)`. -/
theorem upsert_page_c5 (db : CrawlDb) (url : List Char) (d1 d2 t1 t2 : Nat)
    (huniq : (db.pages.filter (fun r => r.url = url)).length ≤ 1) :
    (upsert_page ((upsert_page db url d1 t1).2) url d2 t2).1.1 =
        (upsert_page db url d1 t1).1.1 ∧
    (upsert_page ((upsert_page db url d1 t1).2) url d2 t2).2 =
        (upsert_page db url d1 t1).2 ∧
    ((upsert_page db url d1 t1).2.pages.filter (fun r => r.url = url)).length = 1 ∧
    (find_page db url = none →
      (upsert_page db url d1 t1).1 = (db.nextId, none, none) ∧
      (upsert_page db url d1 t1).2.pages =
        db.pages ++ [⟨db.nextId, url, some t1, none, none, none, none, none, d1⟩]) := by
  rcases e : find_page db url with _ | r
  · have h1 : upsert_page db url d1 t1 =
        ((db.nextId, none, none),
          { db with pages := db.pages ++ [⟨db.nextId, url, some t1, none, none, none, none, none, d1⟩], nextId := db.nextId + 1 }) := by
      rw [upsert_page, e]
    have h2 := find_page_append db url
      ⟨db.nextId, url, some t1, none, none, none, none, none, d1⟩ (db.nextId + 1) e rfl
    have h3 : upsert_page ((upsert_page db url d1 t1).2) url d2 t2 =
        ((db.nextId, none, none), (upsert_page db url d1 t1).2) := by
      rw [h1, upsert_page, h2]
    unfold find_page at e
    refine ⟨by rw [h3, h1], by rw [h3], ?_, fun _ => ⟨by rw [h1], by rw [h1]⟩⟩
    rw [h1]
    show ((db.pages ++ [(⟨db.nextId, url, some t1, none, none, none, none, none, d1⟩ : PageRow)]).filter
        (fun r => r.url = url)).length = 1
    rw [List.filter_append, List.filter_eq_nil_iff.mpr ?hn]
    case hn =>
      intro a ha
      have := List.find?_eq_none.mp e a ha
      simpa using this
    simp
  · have h1 : upsert_page db url d1 t1 = ((r.id, r.etag, r.last_modified), db) := by
      rw [upsert_page, e]
    have h3 : upsert_page ((upsert_page db url d1 t1).2) url d2 t2 =
        ((r.id, r.etag, r.last_modified), db) := by
      rw [h1]
      show upsert_page db url d2 t2 = _
      rw [upsert_page, e]
    unfold find_page at e
    have hpr : r.url = url := by
      have := List.find?_some e
      simpa using this
    have hmem : r ∈ db.pages := List.mem_of_find?_eq_some e
    refine ⟨by rw [h3, h1], by rw [h3, h1], ?_, ?_⟩
    · rw [h1]
      show (db.pages.filter (fun x => x.url = url)).length = 1
      have hrmem : r ∈ db.pages.filter (fun x => x.url = url) :=
        List.mem_filter.mpr ⟨hmem, by simpa using hpr⟩
      have hpos : 0 < (db.pages.filter (fun x => x.url = url)).length :=
        List.length_pos.mpr (fun hnil => by rw [hnil] at hrmem; exact absurd hrmem (by simp))
      omega
    · intro hcon
      exact absurd hcon (by simp)

/-- An empty store, for concrete instances. -/
def emptyDb : CrawlDb := ⟨[], 1, [], [], [], []⟩

def nanjingUrl : List Char := ("https://en.wikipedia.org/wiki/Nanjing").toList

/-- The witness instance for `upsert_page_c5`. -/
theorem upsert_page_c5_witness :
    ((emptyDb.pages.filter (fun r => r.url = nanjingUrl)).length ≤ 1) ∧
    ((upsert_page ((upsert_page emptyDb nanjingUrl 0 5).2) nanjingUrl 1 9).1.1 =
        (upsert_page emptyDb nanjingUrl 0 5).1.1 ∧
      (upsert_page ((upsert_page emptyDb nanjingUrl 0 5).2) nanjingUrl 1 9).2 =
        (upsert_page emptyDb nanjingUrl 0 5).2 ∧
      ((upsert_page emptyDb nanjingUrl 0 5).2.pages.filter (fun r => r.url = nanjingUrl)).length = 1 ∧
      (find_page emptyDb nanjingUrl = none →
        (upsert_page emptyDb nanjingUrl 0 5).1 = (emptyDb.nextId, none, none) ∧
        (upsert_page emptyDb nanjingUrl 0 5).2.pages =
          emptyDb.pages ++ [⟨emptyDb.nextId, nanjingUrl, some 5, none, none, none, none, none, 0⟩])) :=
  ⟨by decide, upsert_page_c5 emptyDb nanjingUrl 0 1 5 9 (by decide)⟩

/-! ## `RateLimiter` (C3)

Python float arithmetic is modelled exactly over `ℚ` (the scheduling algebra
uses only `+`, `-`, `max` and one division by the configured rate). -/

structure RateLimiter where
  rps : ℚ
  last : List (List Char × ℚ)
deriving DecidableEq

/-- `self.last.get(host, 0.0)`. -/
def lastOf (rl : RateLimiter) (host : List Char) : ℚ :=
  match rl.last.find? (fun pr => pr.1 = host) with
  | some pr => pr.2
  | none => 0

/-- `RateLimiter.wait`: compute the sleep under the lock and record the
scheduled slot `now + sleep` as the host's last-scheduled time.  Returns the
sleep amount and the new limiter state. -/
def RateLimiter.wait (rl : RateLimiter) (host : List Char) (now : ℚ) : ℚ × RateLimiter :=
  let period : ℚ := 1 / max rl.rps (1/10)
  let next_ok := lastOf rl host + period
  let sleep := max 0 (next_ok - now)
  (sleep, ⟨rl.rps, (host, now + sleep) :: rl.last.filter (fun pr => ¬ pr.1 = host)⟩)

/-- The scheduled slots (`now + sleep`) of a sequence of `wait` calls for
one host, with the given monotonic-clock readings. -/
def scheduleSlots (rl : RateLimiter) (host : List Char) : List ℚ → List ℚ
  | [] => []
  | now :: rest => (now + (rl.wait host now).1) :: scheduleSlots (rl.wait host now).2 host rest

theorem wait_rps (rl : RateLimiter) (host : List Char) (now : ℚ) :
    (rl.wait host now).2.rps = rl.rps := rfl

theorem wait_slot (rl : RateLimiter) (host : List Char) (now : ℚ) :
    now + (rl.wait host now).1 = max now (lastOf rl host + 1 / max rl.rps (1/10)) := by
  show now + max 0 (lastOf rl host + 1 / max rl.rps (1/10) - now) = _
  rcases le_total (lastOf rl host + 1 / max rl.rps (1/10)) now with h | h
  · rw [max_eq_left (by linarith), max_eq_left h]
    ring
  · rw [max_eq_right (by linarith), max_eq_right h]
    ring

theorem wait_lastOf (rl : RateLimiter) (host : List Char) (now : ℚ) :
    lastOf (rl.wait host now).2 host = now + (rl.wait host now).1 := by
  show lastOf ⟨rl.rps, (host, now + (rl.wait host now).1) :: rl.last.filter (fun pr => ¬ pr.1 = host)⟩ host = _
  unfold lastOf
  rw [List.find?_cons_of_pos _ (by simp)]

theorem period_pos (R : ℚ) : 0 < 1 / max R (1/10) := by
  apply div_pos
  · norm_num
  · exact lt_of_lt_of_le (by norm_num) (le_max_right R (1/10))

/-- Every slot sequence for one host is spaced by at least the period, and
every slot is at least one period after the incoming last-scheduled time. -/
theorem scheduleSlots_chain (host : List Char) :
    ∀ (times : List ℚ) (rl : RateLimiter),
      List.Chain' (fun a b => a + 1 / max rl.rps (1/10) ≤ b) (scheduleSlots rl host times) ∧
      ∀ s ∈ scheduleSlots rl host times, lastOf rl host + 1 / max rl.rps (1/10) ≤ s := by
  intro times
  induction times with
  | nil =>
    intro rl
    exact ⟨List.chain'_nil, by simp [scheduleSlots]⟩
  | cons now rest ih =>
    intro rl
    obtain ⟨ihc, ihall⟩ := ih (rl.wait host now).2
    rw [wait_rps] at ihc ihall
    have hslot : lastOf rl host + 1 / max rl.rps (1/10) ≤ now + (rl.wait host now).1 := by
      rw [wait_slot]
      exact le_max_right _ _
    have hp := period_pos rl.rps
    constructor
    · rw [scheduleSlots, List.chain'_cons']
      refine ⟨?_, ihc⟩
      intro b hb
      have hbmem : b ∈ scheduleSlots (rl.wait host now).2 host rest :=
        List.mem_of_mem_head? hb
      have := ihall b hbmem
      rw [wait_lastOf] at this
      exact this
    · intro s hs
      rw [scheduleSlots] at hs
      rcases List.mem_cons.mp hs with h | h
      · rw [h]
        exact hslot
      · have := ihall s h
        rw [wait_lastOf] at this
        linarith

/-- A chain spaced by `p` spans at least `(length − 1) * p`. -/
theorem chain_head_last {p : ℚ} :
    ∀ {l : List ℚ}, List.Chain' (fun a b => a + p ≤ b) l →
      ∀ (h : l ≠ []), l.head h + ((l.length - 1 : ℕ) : ℚ) * p ≤ l.getLast h := by
  intro l
  induction l with
  | nil =>
    intro _ h
    exact absurd rfl h
  | cons a t ih =>
    intro hc h
    cases t with
    | nil => simp
    | cons b t2 =>
      rw [List.chain'_cons] at hc
      have hstep : a + p ≤ b := hc.1
      have hrec := ih hc.2 (by simp)
      rw [List.getLast_cons (by simp)]
      have hlen : ((a :: b :: t2).length - 1 : ℕ) = ((b :: t2).length - 1 : ℕ) + 1 := by
        simp
      rw [hlen]
      push_cast
      have hhead : (b :: t2).head (by simp) = b := rfl
      rw [hhead] at hrec
      have hple : ((b :: t2).length - 1 : ℕ) = t2.length := by simp
      rw [hple] at hrec
      show a + ((t2.length : ℚ) + 1) * p ≤ (b :: t2).getLast (by simp)
      have : a + ((t2.length : ℚ) + 1) * p = (a + p) + (t2.length : ℚ) * p := by ring
      rw [this]
      calc (a + p) + (t2.length : ℚ) * p ≤ b + (t2.length : ℚ) * p := by linarith
        _ ≤ (b :: t2).getLast (by simp) := hrec

/-- C3 (counterexample): with `R = 1/20` requests per second the limiter's
period is `1 / max(R, 0.1) = 10`, not `1/R = 20`: two calls at clock times
100 and 115 are both scheduled immediately, 15 < 20 apart. -/
theorem rate_limiter_c3_cex :
    scheduleSlots ⟨1/20, []⟩ (("example.com").toList) [100, 115] = [100, 115] ∧
      ¬ ((100 : ℚ) + 1 / ((1:ℚ)/20) ≤ 115) := by
  constructor
  · show (100 + max 0 (lastOf ⟨1/20, []⟩ _ + 1 / max ((1:ℚ)/20) (1/10) - 100)) ::
        scheduleSlots _ _ [115] = [100, 115]
    norm_num [scheduleSlots, RateLimiter.wait, lastOf, List.find?]
  · norm_num

/-- C3 (amended): for a limiter configured at `R ≥ 0.1` requests per second,
consecutive scheduled slots for a host are at least `1/R` apart (the
scheduled time, `now + sleep`, is what is stored as the next-allowed base),
so `M` requests span at least `(M-1)/R`.  For `R < 0.1` the code clamps the
rate at `0.1`, so only a `1 / max(R, 0.1)` interval is enforced. -/
theorem rate_limiter_c3 (R : ℚ) (host : List Char) (times : List ℚ)
    (hR : (1:ℚ)/10 ≤ R) :
    List.Chain' (fun a b => a + 1/R ≤ b) (scheduleSlots ⟨R, []⟩ host times) ∧
    (∀ h : scheduleSlots ⟨R, []⟩ host times ≠ [],
      (scheduleSlots ⟨R, []⟩ host times).head h +
        (((scheduleSlots ⟨R, []⟩ host times).length - 1 : ℕ) : ℚ) * (1/R) ≤
        (scheduleSlots ⟨R, []⟩ host times).getLast h) ∧
    (∀ (rl : RateLimiter) (now : ℚ),
      lastOf (rl.wait host now).2 host = now + (rl.wait host now).1) := by
  have hmax : max R ((1:ℚ)/10) = R := max_eq_left hR
  obtain ⟨hc, _⟩ := scheduleSlots_chain host times ⟨R, []⟩
  simp only [hmax] at hc
  exact ⟨hc, fun h => chain_head_last hc h, fun rl now => wait_lastOf rl host now⟩

/-- The witness instance for `rate_limiter_c3`: two calls at rate 2. -/
theorem rate_limiter_c3_witness :
    ((1:ℚ)/10 ≤ 2) ∧
      (List.Chain' (fun a b => a + 1/(2:ℚ) ≤ b)
          (scheduleSlots ⟨2, []⟩ (("example.com").toList) [0, 1/10]) ∧
        (∀ h : scheduleSlots ⟨2, []⟩ (("example.com").toList) [0, 1/10] ≠ [],
          (scheduleSlots ⟨2, []⟩ (("example.com").toList) [0, 1/10]).head h +
            (((scheduleSlots ⟨2, []⟩ (("example.com").toList) [0, 1/10]).length - 1 : ℕ) : ℚ) *
              (1/(2:ℚ)) ≤
            (scheduleSlots ⟨2, []⟩ (("example.com").toList) [0, 1/10]).getLast h) ∧
        (∀ (rl : RateLimiter) (now : ℚ),
          lastOf (rl.wait (("example.com").toList) now).2 (("example.com").toList) =
            now + (rl.wait (("example.com").toList) now).1)) :=
  ⟨by norm_num, rate_limiter_c3 2 (("example.com").toList) [0, 1/10] (by norm_num)⟩

/-! ## `robots_ok` (C2)

The per-host robots cache.  The rule semantics of
`RobotFileParser.can_fetch("*", url)` are abstracted as a parameter
`canF : rules-text → url → Bool`; the network is a per-scheme oracle
(`true` = https, `false` = http) returning `(status, body)` on a completed
request and `none` on a transport exception.  The third component of the
result records whether this check went to the network (a retrieval attempt).
-/

/-- Python `str.strip()` (whitespace at both ends). -/
def trimWs (l : List Char) : List Char :=
  ((l.dropWhile Char.isWhitespace).reverse.dropWhile Char.isWhitespace).reverse

/-- One scheme's attempt: usable only on a 200 with nonempty stripped body. -/
def tryScheme (r : Option (Int × List Char)) : Option (List Char) :=
  match r with
  | some (st, txt) => if st = 200 ∧ trimWs txt ≠ [] then some txt else none
  | none => none

/-- The `for scheme in ("https","http")` loop of `robots_ok`. -/
def fetchRobots (net : Bool → Option (Int × List Char)) : Option (List Char) :=
  match tryScheme (net true) with
  | some t => some t
  | none => tryScheme (net false)

/-- `robots_ok` from `crawler/app.py`: consult the per-host cache; on a miss
fetch robots.txt (https then http), caching only a successful parse; if
nothing usable was retrieved, log a warning and return `True` (fail-open)
WITHOUT touching the cache.  Returns (decision, new cache, attempted?). -/
def robots_ok (canF : List Char → List Char → Bool)
    (net : Bool → Option (Int × List Char))
    (cache : List (List Char × List Char)) (url : List Char) :
    Bool × List (List Char × List Char) × Bool :=
  let host := (urlsplit url).netloc
  match cache.find? (fun pr => pr.1 = host) with
  | some pr => (canF pr.2 url, cache, false)
  | none =>
    match fetchRobots net with
    | some txt => (canF txt url, (host, txt) :: cache, true)
    | none => (true, cache, true)

/-- A concrete `can_fetch` for the counterexample: allow iff the cached
rules text is empty. -/
def canFProbe : List Char → List Char → Bool := fun rules _ => rules.isEmpty

def netFail : Bool → Option (Int × List Char) := fun _ => none

def netDeny : Bool → Option (Int × List Char) := fun _ => some (200, ("X").toList)

/-- C2 (counterexample): after a failed retrieval the fail-open decision is
NOT cached — the host stays unknown, the next check attempts retrieval
again, and its outcome follows the new network answer rather than any
cached decision. -/
theorem robots_ok_c2_cex :
    robots_ok canFProbe netFail [] (("https://unreachable.com/foo").toList) =
      (true, [], true) ∧
    (robots_ok canFProbe netFail
        (robots_ok canFProbe netFail [] (("https://unreachable.com/foo").toList)).2.1
        (("https://unreachable.com/foo").toList)).2.2 = true ∧
    (robots_ok canFProbe netDeny
        (robots_ok canFProbe netFail [] (("https://unreachable.com/foo").toList)).2.1
        (("https://unreachable.com/foo").toList)).1 = false := by
  refine ⟨?_, ?_, ?_⟩ <;> decide

/-- C2 (amended): the robots cache is a per-host state machine
`unknown → fetched(rules)` only: a cache hit never re-attempts retrieval and
never invalidates the entry; a successful retrieval parses and caches the
rules for the rest of the run; a failed retrieval returns fail-open for that
check but caches nothing, so the host remains unknown and every later check
re-attempts retrieval. -/
theorem robots_ok_c2 (canF : List Char → List Char → Bool)
    (net : Bool → Option (Int × List Char))
    (cache : List (List Char × List Char)) (url : List Char) :
    (∀ pr, cache.find? (fun q => q.1 = (urlsplit url).netloc) = some pr →
      robots_ok canF net cache url = (canF pr.2 url, cache, false)) ∧
    (cache.find? (fun q => q.1 = (urlsplit url).netloc) = none →
      fetchRobots net = none →
      robots_ok canF net cache url = (true, cache, true)) ∧
    (cache.find? (fun q => q.1 = (urlsplit url).netloc) = none →
      ∀ txt, fetchRobots net = some txt →
        robots_ok canF net cache url =
          (canF txt url, ((urlsplit url).netloc, txt) :: cache, true)) := by
  refine ⟨?_, ?_, ?_⟩
  · intro pr hpr
    rw [robots_ok, hpr]
  · intro hmiss hnone
    rw [robots_ok, hmiss, hnone]
  · intro hmiss txt hsome
    rw [robots_ok, hmiss, hsome]

/-- The witness instance for `robots_ok_c2` (cache miss, dead network). -/
theorem robots_ok_c2_witness :
    (([] : List (List Char × List Char)).find?
        (fun q => q.1 = (urlsplit (("https://unreachable.com/foo").toList)).netloc) = none) ∧
    (fetchRobots netFail = none) ∧
    robots_ok canFProbe netFail [] (("https://unreachable.com/foo").toList) =
      (true, [], true) :=
  ⟨by decide, by decide,
    (robots_ok_c2 canFProbe netFail [] (("https://unreachable.com/foo").toList)).2.1
      (by decide) (by decide)⟩

/-! ## The frontier / worker pool (C1)

An interleaving small-step semantics of `crawl()`'s worker loop over an
abstract link graph on which every fetch succeeds with a 200 HTML response
(`g u` = the filtered, canonicalized links of page `u`; `allowed` abstracts
`allowed_by_patterns`).  A worker is `idle` or `busy` with one item.

* `dequeueStopped` — lines 281–288: the stop flag is set, so the dequeued
  item is discarded (`task_done`, `continue`) without any fetch.
* `dequeueSeen` — lines 291–294: the URL was already seen; discarded.
* `startFetch` — lines 281–313: dequeue, pass the stop check (flag unset),
  mark seen, issue the request.  The seen check-and-add is merged into this
  step; the stop check happening strictly before the fetch is the point.
* `finish` — lines 339–388: the 200 path completes: links are enqueued
  (gated on depth and on the stop flag as read at line 364), then under
  `fetch_lock` the counter increments and the flag is set when the counter
  reaches `max_pages`.  Merged into one atomic step; the race the code
  permits lives between `startFetch` and `finish`, which stay separate.
-/

inductive Phase where
  | idle
  | busy (url : List Char) (depth : Nat)
deriving DecidableEq

structure PoolConfig where
  maxPages : Nat
  maxDepth : Nat
  g : List Char → List (List Char)
  allowed : List Char → Bool

structure PoolState where
  frontier : List (List Char × Nat)
  seen : List (List Char)
  fetched : Nat
  stop : Bool
  workers : List Phase
deriving DecidableEq

inductive PoolStep (cfg : PoolConfig) : PoolState → PoolState → Prop where
  | dequeueStopped (u : List Char) (d : Nat) (rest : List (List Char × Nat))
      (seen : List (List Char)) (fetched : Nat) (workers : List Phase) :
      PoolStep cfg ⟨(u, d) :: rest, seen, fetched, true, workers⟩
        ⟨rest, seen, fetched, true, workers⟩
  | dequeueSeen (u : List Char) (d : Nat) (rest : List (List Char × Nat))
      (seen : List (List Char)) (fetched : Nat) (workers : List Phase)
      (hu : u ∈ seen) :
      PoolStep cfg ⟨(u, d) :: rest, seen, fetched, false, workers⟩
        ⟨rest, seen, fetched, false, workers⟩
  | startFetch (u : List Char) (d : Nat) (rest : List (List Char × Nat))
      (seen : List (List Char)) (fetched : Nat) (workers : List Phase) (w : Nat)
      (hu : u ∉ seen) (hw : workers.get? w = some Phase.idle) :
      PoolStep cfg ⟨(u, d) :: rest, seen, fetched, false, workers⟩
        ⟨rest, u :: seen, fetched, false, workers.set w (Phase.busy u d)⟩
  | finish (frontier : List (List Char × Nat)) (seen : List (List Char))
      (fetched : Nat) (stop : Bool) (workers : List Phase) (w : Nat)
      (u : List Char) (d : Nat) (hw : workers.get? w = some (Phase.busy u d)) :
      PoolStep cfg ⟨frontier, seen, fetched, stop, workers⟩
        ⟨frontier ++ (if d + 1 ≤ cfg.maxDepth ∧ stop = false then
            ((cfg.g u).filter (fun v => cfg.allowed v && ! seen.contains v)).map
              (fun v => (v, d + 1))
          else []),
         seen, fetched + 1, stop || decide (cfg.maxPages ≤ fetched + 1),
         workers.set w Phase.idle⟩

def initState (seeds : List (List Char × Nat)) (W : Nat) : PoolState :=
  ⟨seeds, [], 0, false, List.replicate W Phase.idle⟩

def Reachable (cfg : PoolConfig) (s0 s : PoolState) : Prop :=
  Relation.ReflTransGen (PoolStep cfg) s0 s

/-- Is a worker in-flight? -/
def isBusy : Phase → Bool
  | Phase.idle => false
  | Phase.busy _ _ => true

/-- The number of in-flight fetches among a worker list. -/
def busyCountL (ws : List Phase) : Nat := ws.countP isBusy

/-- The number of in-flight fetches. -/
def busyCount (s : PoolState) : Nat := busyCountL s.workers

theorem countP_set_add {α : Type} (p : α → Bool) :
    ∀ (l : List α) (w : Nat) (x y : α), l.get? w = some x →
      (l.set w y).countP p + (if p x then 1 else 0) =
        l.countP p + (if p y then 1 else 0) := by
  intro l
  induction l with
  | nil =>
    intro w x y h
    simp at h
  | cons a t ih =>
    intro w x y h
    cases w with
    | zero =>
      simp only [List.get?] at h
      injection h with h
      subst h
      simp only [List.set]
      rw [List.countP_cons, List.countP_cons]
      omega
    | succ w' =>
      simp only [List.get?] at h
      simp only [List.set]
      rw [List.countP_cons, List.countP_cons]
      have := ih w' x y h
      omega

theorem busyCountL_set_busy {workers : List Phase} {w : Nat} {u : List Char} {d : Nat}
    (hw : workers.get? w = some Phase.idle) :
    busyCountL (workers.set w (Phase.busy u d)) = busyCountL workers + 1 := by
  have hset := countP_set_add isBusy workers w Phase.idle (Phase.busy u d) hw
  rw [show isBusy Phase.idle = false from rfl, show isBusy (Phase.busy u d) = true from rfl] at hset
  simp only [Bool.false_eq_true, if_false, if_true] at hset
  unfold busyCountL
  omega

theorem busyCountL_set_idle {workers : List Phase} {w : Nat} {u : List Char} {d : Nat}
    (hw : workers.get? w = some (Phase.busy u d)) :
    busyCountL (workers.set w Phase.idle) + 1 = busyCountL workers := by
  have hset := countP_set_add isBusy workers w (Phase.busy u d) Phase.idle hw
  rw [show isBusy Phase.idle = false from rfl, show isBusy (Phase.busy u d) = true from rfl] at hset
  simp only [Bool.false_eq_true, if_false, if_true] at hset
  unfold busyCountL
  omega

theorem busyCountL_le (ws : List Phase) : busyCountL ws ≤ ws.length :=
  List.countP_le_length _

theorem busyCountL_replicate (W : Nat) : busyCountL (List.replicate W Phase.idle) = 0 := by
  induction W with
  | zero => rfl
  | succ n ih =>
    unfold busyCountL at ih ⊢
    rw [List.replicate_succ, List.countP_cons]
    simp [ih, isBusy]

/-- The pool invariant: worker-count stability, the stop flag's meaning, and
the key bound `fetched + in-flight ≤ maxPages - 1 + W`. -/
def PoolInv (cfg : PoolConfig) (W : Nat) (s : PoolState) : Prop :=
  s.workers.length = W ∧ (s.stop = false → s.fetched < cfg.maxPages) ∧
    s.fetched + busyCount s ≤ cfg.maxPages - 1 + W

theorem poolInv_init (cfg : PoolConfig) (seeds : List (List Char × Nat)) (W : Nat)
    (hK : 1 ≤ cfg.maxPages) : PoolInv cfg W (initState seeds W) := by
  refine ⟨by simp [initState], fun _ => hK, ?_⟩
  show 0 + busyCountL (List.replicate W Phase.idle) ≤ cfg.maxPages - 1 + W
  rw [busyCountL_replicate]
  omega

theorem poolInv_step {cfg : PoolConfig} {W : Nat} {s s' : PoolState}
    (hinv : PoolInv cfg W s) (hstep : PoolStep cfg s s') : PoolInv cfg W s' := by
  obtain ⟨hlen, hflag, hsum⟩ := hinv
  cases hstep with
  | dequeueStopped u d rest seen fetched workers =>
    exact ⟨hlen, hflag, hsum⟩
  | dequeueSeen u d rest seen fetched workers hu =>
    exact ⟨hlen, hflag, hsum⟩
  | startFetch u d rest seen fetched workers w hu hw =>
    have hlen' : workers.length = W := hlen
    have hflt : fetched < cfg.maxPages := hflag (by trivial)
    have hsum' : fetched + busyCountL workers ≤ cfg.maxPages - 1 + W := hsum
    have hinc := @busyCountL_set_busy workers w u d hw
    refine ⟨?_, fun _ => hflt, ?_⟩
    · show (workers.set w (Phase.busy u d)).length = W
      rw [List.length_set]
      exact hlen'
    · show fetched + busyCountL (workers.set w (Phase.busy u d)) ≤ cfg.maxPages - 1 + W
      have hle : busyCountL (workers.set w (Phase.busy u d)) ≤
          (workers.set w (Phase.busy u d)).length := busyCountL_le _
      rw [List.length_set, hlen'] at hle
      omega
  | finish frontier seen fetched stop workers w u d hw =>
    have hlen' : workers.length = W := hlen
    have hsum' : fetched + busyCountL workers ≤ cfg.maxPages - 1 + W := hsum
    have hdec := @busyCountL_set_idle workers w u d hw
    refine ⟨?_, ?_, ?_⟩
    · show (workers.set w Phase.idle).length = W
      rw [List.length_set]
      exact hlen'
    · show (stop || decide (cfg.maxPages ≤ fetched + 1)) = false → fetched + 1 < cfg.maxPages
      intro hfl
      rw [Bool.or_eq_false_iff] at hfl
      have := of_decide_eq_false hfl.2
      omega
    · show fetched + 1 + busyCountL (workers.set w Phase.idle) ≤ cfg.maxPages - 1 + W
      omega

theorem poolInv_reachable {cfg : PoolConfig} {seeds : List (List Char × Nat)} {W : Nat}
    {s : PoolState} (hK : 1 ≤ cfg.maxPages)
    (h : Reachable cfg (initState seeds W) s) : PoolInv cfg W s := by
  induction h with
  | refl => exact poolInv_init cfg seeds W hK
  | tail _ hstep ih => exact poolInv_step ih hstep

theorem busyCountL_pos {workers : List Phase} {w : Nat} {u : List Char} {d : Nat}
    (hw : workers.get? w = some (Phase.busy u d)) : 1 ≤ busyCountL workers := by
  have hm : Phase.busy u d ∈ workers := List.get?_mem hw
  unfold busyCountL
  have hp : 0 < workers.countP isBusy := List.countP_pos_iff.mpr ⟨_, hm, rfl⟩
  omega

/-- A termination measure over pool states: strictly decreases along every
step, provided the page graph's out-degree is bounded by `B`. -/
def poolMeasure (cfg : PoolConfig) (W B : Nat) (s : PoolState) : Nat :=
  (cfg.maxPages - 1 + W - s.fetched) * (2 * B + 1) + 2 * s.frontier.length + busyCount s

theorem poolMeasure_mk (cfg : PoolConfig) (W B : Nat) (f : List (List Char × Nat))
    (se : List (List Char)) (fe : Nat) (st : Bool) (ws : List Phase) :
    poolMeasure cfg W B ⟨f, se, fe, st, ws⟩ =
      (cfg.maxPages - 1 + W - fe) * (2 * B + 1) + 2 * f.length + busyCountL ws := rfl

theorem poolMeasure_decrease {cfg : PoolConfig} {W B : Nat} {s s' : PoolState}
    (hinv : PoolInv cfg W s) (hB : ∀ u, (cfg.g u).length ≤ B)
    (hstep : PoolStep cfg s s') : poolMeasure cfg W B s' < poolMeasure cfg W B s := by
  obtain ⟨hlen, hflag, hsum⟩ := hinv
  cases hstep with
  | dequeueStopped u d rest seen fetched workers =>
    rw [poolMeasure_mk, poolMeasure_mk]
    simp only [List.length_cons]
    omega
  | dequeueSeen u d rest seen fetched workers hu =>
    rw [poolMeasure_mk, poolMeasure_mk]
    simp only [List.length_cons]
    omega
  | startFetch u d rest seen fetched workers w hu hw =>
    rw [poolMeasure_mk, poolMeasure_mk]
    simp only [List.length_cons]
    have hinc := @busyCountL_set_busy workers w u d hw
    omega
  | finish frontier seen fetched stop workers w u d hw =>
    rw [poolMeasure_mk, poolMeasure_mk]
    have hsum' : fetched + busyCountL workers ≤ cfg.maxPages - 1 + W := hsum
    have hbc := @busyCountL_pos workers w u d hw
    have hdec := @busyCountL_set_idle workers w u d hw
    have hA : (if d + 1 ≤ cfg.maxDepth ∧ stop = false then
        ((cfg.g u).filter (fun v => cfg.allowed v && ! seen.contains v)).map
          (fun v => (v, d + 1)) else []).length ≤ B := by
      split
      · rw [List.length_map]
        exact le_trans (List.length_filter_le _ _) (hB u)
      · simp
    rw [List.length_append]
    have hq : cfg.maxPages - 1 + W - fetched =
        cfg.maxPages - 1 + W - (fetched + 1) + 1 := by omega
    have hmul : (cfg.maxPages - 1 + W - fetched) * (2 * B + 1) =
        (cfg.maxPages - 1 + W - (fetched + 1)) * (2 * B + 1) + (2 * B + 1) := by
      rw [hq]; ring
    omega

/-- C1 (corrected): with `max_pages = K` and `W` workers over an arbitrary
link graph, a reachable pool state has (i) at most `K - 1 + W` completed
fetches — the stop flag is only consulted *before* a fetch starts, so every
worker already in flight when the counter reaches `K` still completes,
allowing up to `W - 1` fetches beyond the budget — (ii) the flag unset only
while the counter is below `K`, (iii) drain behaviour: once the flag is set,
any further step keeps it set, marks no new URL as seen, and starts no new
fetch (the in-flight count never grows), and (iv) termination: whenever the
graph's out-degree is bounded, every step strictly decreases a natural-number
measure, so no infinite run exists. -/
theorem pool_quota_c1 {cfg : PoolConfig} {seeds : List (List Char × Nat)}
    {W : Nat} {s : PoolState} (hK : 1 ≤ cfg.maxPages)
    (h : Reachable cfg (initState seeds W) s) :
    s.fetched ≤ cfg.maxPages - 1 + W ∧
    (s.stop = false → s.fetched < cfg.maxPages) ∧
    (∀ s', PoolStep cfg s s' → s.stop = true →
      s'.stop = true ∧ s'.seen = s.seen ∧ busyCount s' ≤ busyCount s) ∧
    (∀ B, (∀ u, (cfg.g u).length ≤ B) →
      ∀ s', PoolStep cfg s s' → poolMeasure cfg W B s' < poolMeasure cfg W B s) := by
  have hinv : PoolInv cfg W s := poolInv_reachable hK h
  obtain ⟨hlen, hflag, hsum⟩ := hinv
  refine ⟨?_, hflag, ?_, ?_⟩
  · have : s.fetched ≤ s.fetched + busyCount s := Nat.le_add_right _ _
    omega
  · intro s' hstep hstop
    cases hstep with
    | dequeueStopped u d rest seen fetched workers =>
      exact ⟨rfl, rfl, le_refl _⟩
    | dequeueSeen u d rest seen fetched workers hu =>
      simp at hstop
    | startFetch u d rest seen fetched workers w hu hw =>
      simp at hstop
    | finish frontier seen fetched stop workers w u d hw =>
      have hst : stop = true := hstop
      refine ⟨?_, rfl, ?_⟩
      · show (stop || decide (cfg.maxPages ≤ fetched + 1)) = true
        rw [hst]
        rfl
      · show busyCountL (workers.set w Phase.idle) ≤ busyCountL workers
        have hdec := @busyCountL_set_idle workers w u d hw
        omega
  · intro B hB s' hstep
    exact poolMeasure_decrease ⟨hlen, hflag, hsum⟩ hB hstep

/-- C1 counterexample to "exactly K fetches, never more": with `max_pages = 1`
and two workers, both workers can pass the stop check (flag still unset) and
issue their fetches before either completion increments the counter, so a
state with `fetched = 2 > max_pages` is reachable. -/
theorem pool_quota_c1_cex :
    (PoolConfig.mk 1 0 (fun _ => []) (fun _ => false)).maxPages = 1 ∧
    Reachable (PoolConfig.mk 1 0 (fun _ => []) (fun _ => false))
      (initState [(['a'], 0), (['b'], 0)] 2)
      ⟨[], [['b'], ['a']], 2, true, [Phase.idle, Phase.idle]⟩ := by
  refine ⟨rfl, ?_⟩
  have h1 : PoolStep (PoolConfig.mk 1 0 (fun _ => []) (fun _ => false))
      (initState [(['a'], 0), (['b'], 0)] 2)
      ⟨[(['b'], 0)], [['a']], 0, false, [Phase.busy ['a'] 0, Phase.idle]⟩ :=
    PoolStep.startFetch ['a'] 0 [(['b'], 0)] [] 0 [Phase.idle, Phase.idle] 0
      (by simp) rfl
  have h2 : PoolStep (PoolConfig.mk 1 0 (fun _ => []) (fun _ => false))
      ⟨[(['b'], 0)], [['a']], 0, false, [Phase.busy ['a'] 0, Phase.idle]⟩
      ⟨[], [['b'], ['a']], 0, false, [Phase.busy ['a'] 0, Phase.busy ['b'] 0]⟩ :=
    PoolStep.startFetch ['b'] 0 [] [['a']] 0 [Phase.busy ['a'] 0, Phase.idle] 1
      (by decide) rfl
  have h3 : PoolStep (PoolConfig.mk 1 0 (fun _ => []) (fun _ => false))
      ⟨[], [['b'], ['a']], 0, false, [Phase.busy ['a'] 0, Phase.busy ['b'] 0]⟩
      ⟨[], [['b'], ['a']], 1, true, [Phase.idle, Phase.busy ['b'] 0]⟩ :=
    PoolStep.finish [] [['b'], ['a']] 0 false
      [Phase.busy ['a'] 0, Phase.busy ['b'] 0] 0 ['a'] 0 rfl
  have h4 : PoolStep (PoolConfig.mk 1 0 (fun _ => []) (fun _ => false))
      ⟨[], [['b'], ['a']], 1, true, [Phase.idle, Phase.busy ['b'] 0]⟩
      ⟨[], [['b'], ['a']], 2, true, [Phase.idle, Phase.idle]⟩ :=
    PoolStep.finish [] [['b'], ['a']] 1 true
      [Phase.idle, Phase.busy ['b'] 0] 1 ['b'] 0 rfl
  exact Relation.ReflTransGen.tail
    (Relation.ReflTransGen.tail
      (Relation.ReflTransGen.tail (Relation.ReflTransGen.single h1) h2) h3) h4

/-- The witness instance for `pool_quota_c1` at the initial state of a
two-worker, one-page configuration. -/
theorem pool_quota_c1_witness :
    1 ≤ (PoolConfig.mk 1 0 (fun _ => []) (fun _ => false)).maxPages ∧
    (initState [(['a'], 0)] 2).fetched ≤
      (PoolConfig.mk 1 0 (fun _ => []) (fun _ => false)).maxPages - 1 + 2 ∧
    ((initState [(['a'], 0)] 2).stop = false →
      (initState [(['a'], 0)] 2).fetched <
        (PoolConfig.mk 1 0 (fun _ => []) (fun _ => false)).maxPages) := by
  have h := @pool_quota_c1 (PoolConfig.mk 1 0 (fun _ => []) (fun _ => false))
    [(['a'], 0)] 2 (initState [(['a'], 0)] 2) (by decide)
    Relation.ReflTransGen.refl
  exact ⟨by decide, h.1, h.2.1⟩

end Wikiagent
